import Mathlib

/-!
Verification of the anime-recommendation graph engine (`proj2.py`, `main.py`).

The source represents a catalog as a `Graph` object holding
`_vertices : dict[id, _Vertex]` (each `_Vertex` carrying a `neighbours`
dict mapping neighbour vertices to integer edge weights) together with a
`popularity : dict[id, int | inf]` table.  We embed each Python dict as an
insertion-ordered association list with overwrite-in-place assignment,
which matches CPython dict semantics (updates keep the key's position,
fresh keys append at the end).  Python's `math.inf` sentinels are embedded
as `none` (`Option Nat` for distances, `Option Int` for popularity ranks),
and each comparison the source performs on possibly-infinite floats is
embedded by a dedicated function reproducing the float semantics,
including `inf == inf` being true and `abs(inf - inf) <= w` being false
(`inf - inf` is `nan` and every `nan` comparison is false).

Item identifiers are opaque strings in the source, used only for equality
and for the lexicographic tie-break inside `heapq` tuples; they are
embedded as `Nat` (the type `Nat` plays the role of the opaque
`anime_id` type throughout) with its total order.
-/


/-- Dict lookup: first entry with the given key (dict keys are unique). -/
def lookupA {κ β : Type} [DecidableEq κ] : List (κ × β) → κ → Option β
  | [], _ => none
  | p :: l, k => if p.1 = k then some p.2 else lookupA l k

/-- Whether a key is present (`k in d` in Python). -/
def hasKey {κ β : Type} [DecidableEq κ] (l : List (κ × β)) (k : κ) : Bool :=
  (lookupA l k).isSome

/-- Dict assignment `d[k] = v`: overwrite in place when the key is present,
append a fresh entry otherwise (CPython dict update semantics). -/
def setA {κ β : Type} [DecidableEq κ] (l : List (κ × β)) (k : κ) (v : β) : List (κ × β) :=
  if hasKey l k then l.map (fun p => if p.1 = k then (k, v) else p) else l ++ [(k, v)]

/-- Keys of an association list, in insertion order. -/
def keysA {κ β : Type} (l : List (κ × β)) : List κ := l.map Prod.fst

/-- Python `new_distance < distances[t]` where the right side is an int or
`math.inf` (`none`). -/
def distLt (p q : Option Nat) : Bool :=
  match p, q with
  | some a, some b => a < b
  | some _, none => true
  | none, _ => false

/-- Python `==` on distances that are ints or `math.inf`: note `inf == inf`
is true for floats. -/
def distEq (p q : Option Nat) : Bool :=
  match p, q with
  | some a, some b => a = b
  | none, none => true
  | _, _ => false

/-- Python `abs(p - q) <= 100` on popularity ranks that are ints or
`math.inf`: false whenever either side is infinite (`inf - k` is `inf`,
and `inf - inf` is `nan`, which compares false). -/
def popWithin (p q : Option Int) : Bool :=
  match p, q with
  | some a, some b => (a - b).natAbs ≤ 100
  | _, _ => false

/-- Python `<` on popularity ranks or `math.inf` (used by `min(..., key=...)`). -/
def popLt (p q : Option Int) : Bool :=
  match p, q with
  | some a, some b => a < b
  | some _, none => true
  | none, _ => false

/-- Python `<=` on popularity ranks or `math.inf` (the order used by
`sorted` on the second key component; `inf <= inf` is true). -/
def popLe (p q : Option Int) : Bool :=
  match p, q with
  | some a, some b => a ≤ b
  | _, none => true
  | none, some _ => false

/-- Lexicographic `<=` on `heapq` entries `(distance, anime_id)`. -/
def pairLe (a b : Nat × Nat) : Bool :=
  a.1 < b.1 || (a.1 = b.1 && a.2 ≤ b.2)

/-- The graph of `proj2.py`: `_vertices` maps each item to its vertex,
a vertex being its `neighbours` dict (neighbour id to edge weight);
`popularity` maps each item to its rank, `none` embedding `math.inf`
(the rank of a row whose popularity field failed to parse). -/
structure Graph where
  vertices : List (Nat × List (Nat × Nat))
  popularity : List (Nat × Option Int)
deriving Repr, DecidableEq

/-- `Graph.__init__`: empty graph. -/
def Graph.empty : Graph := ⟨[], []⟩

/-- `item in self._vertices`. -/
def Graph.hasVertex (g : Graph) (item : Nat) : Bool :=
  hasKey g.vertices item

/-- `Graph.add_vertex`: register the item with an empty neighbour dict and
record its popularity; duplicate registration is a no-op. -/
def Graph.add_vertex (g : Graph) (item : Nat) (popularity : Option Int) : Graph :=
  if g.hasVertex item then g
  else { vertices := g.vertices ++ [(item, [])],
         popularity := setA g.popularity item popularity }

/-- Update one vertex's neighbour dict (`v.neighbours[k] = w`). -/
def setNbr (vs : List (Nat × List (Nat × Nat))) (u k : Nat) (w : Nat) :
    List (Nat × List (Nat × Nat)) :=
  vs.map (fun p => if p.1 = u then (p.1, setA p.2 k w) else p)

/-- `Graph.add_edge`: when both endpoints are registered, set the weight in
both neighbour dicts; otherwise do nothing. -/
def Graph.add_edge (g : Graph) (item1 item2 : Nat) (weight : Nat) : Graph :=
  if g.hasVertex item1 && g.hasVertex item2 then
    { g with vertices := setNbr (setNbr g.vertices item1 item2 weight) item2 item1 weight }
  else g

/-- The neighbour dict of an item (`self._vertices[item].neighbours`);
empty when the item is unregistered. -/
def Graph.nbrs (g : Graph) (item : Nat) : List (Nat × Nat) :=
  (lookupA g.vertices item).getD []

/-- The stored weight between two items, if any. -/
def Graph.weight (g : Graph) (a b : Nat) : Option Nat :=
  lookupA (g.nbrs a) b

/-- `self.popularity.get(x, math.inf)`. -/
def Graph.popGet (g : Graph) (x : Nat) : Option Int :=
  (lookupA g.popularity x).join

/-- Extract the minimum entry of the priority queue together with the
remaining entries.  `heapq` pops the lexicographically least
`(distance, anime_id)` tuple; the queue is embedded as the multiset of
its entries, from which `popMin` removes one least element. -/
def popMin : List (Nat × Nat) → Option ((Nat × Nat) × List (Nat × Nat))
  | [] => none
  | e :: es =>
    match popMin es with
    | none => some (e, [])
    | some (m, rest) => if pairLe e m then some (e, es) else some (m, e :: rest)

/-- One visit's relaxation loop: for every neighbour `(t, w)` of the vertex
just visited (at distance `d`), when `t` is unvisited and `d + w`
improves `distances[t]`, update the distance table and push `(d + w, t)`.
Returns the updated table and the list of pushed entries. -/
def relax (visited : List Nat) (d : Nat) :
    List (Nat × Nat) → List (Nat × Option Nat) → List (Nat × Nat) →
    List (Nat × Option Nat) × List (Nat × Nat)
  | [], dist, acc => (dist, acc)
  | (t, w) :: rest, dist, acc =>
    if visited.contains t then relax visited d rest dist acc
    else if distLt (some (d + w)) ((lookupA dist t).join) then
      relax visited d rest (setA dist t (some (d + w))) (acc ++ [(d + w, t)])
    else relax visited d rest dist acc

/-- The Dijkstra `while pq:` loop shared verbatim by `find_closest_anime`
and `get_top_n_recommendations`: pop the least entry, skip it when its
vertex was already visited, otherwise mark it visited and relax its
neighbours.  The loop is embedded with a fuel parameter; `dijkstraFuel`
below always suffices for the queue to empty (see `dijkstraLoop` fuel
accounting in the proofs), so the embedding agrees with the unbounded
source loop. -/
def dijkstraLoop (g : Graph) :
    Nat → List (Nat × Nat) → List (Nat × Option Nat) → List Nat →
    List (Nat × Option Nat)
  | 0, _, dist, _ => dist
  | fuel + 1, pq, dist, visited =>
    match popMin pq with
    | none => dist
    | some ((d, u), rest) =>
      if visited.contains u then dijkstraLoop g fuel rest dist visited
      else
        let visited' := visited ++ [u]
        let p := relax visited' d (g.nbrs u) dist []
        dijkstraLoop g fuel (rest ++ p.2) p.1 visited'

/-- Total number of stored adjacency entries. -/
def totalAdj (g : Graph) : Nat :=
  (g.vertices.map (fun p => p.2.length)).sum

/-- Fuel sufficient for the Dijkstra loop to drain its queue: each
iteration pops one entry, and a new entry is pushed only while some
vertex is newly visited, at most `totalAdj` pushes per visit. -/
def dijkstraFuel (g : Graph) : Nat :=
  (g.vertices.length + 1) * (totalAdj g + 1) + 2

/-- `distances = {v: inf for v in self._vertices}; distances[start] = 0`. -/
def initDist (g : Graph) (start : Nat) : List (Nat × Option Nat) :=
  setA (g.vertices.map (fun p => (p.1, (none : Option Nat)))) start (some 0)

/-- The distance table computed by the source's Dijkstra loop from
`start`: queue seeded with `(0, start)`, no vertex visited. -/
def dijkstraFrom (g : Graph) (start : Nat) : List (Nat × Option Nat) :=
  dijkstraLoop g (dijkstraFuel g) [(0, start)] (initDist g start) []

/-- The candidate-collection loop of `find_closest_anime`: fold over the
distance table keeping the running minimum distance (initially `inf`) and
the list of non-source items attaining it.  Note the Python comparison
`distance == min_distance` is float equality, so `inf == inf` holds and
unreachable items accumulate while `min_distance` is still `inf`.
The source runs this block twice with identical inputs and keeps the
second, identical result; it is embedded once. -/
def closestCandidates (dist : List (Nat × Option Nat)) (start : Nat) :
    Option Nat × List Nat :=
  dist.foldl
    (fun acc p =>
      if p.1 ≠ start && distLt p.2 acc.1 then (p.2, [p.1])
      else if p.1 ≠ start && distEq p.2 acc.1 then (acc.1, acc.2 ++ [p.1])
      else acc)
    (none, [])

/-- `min(filtered_candidates, key=lambda x: self.popularity.get(x, inf))`:
Python's `min` keeps the first element whose key is strictly least. -/
def minByPop (g : Graph) (x0 : Nat) (xs : List Nat) : Nat :=
  xs.foldl (fun best x => if popLt (g.popGet x) (g.popGet best) then x else best) x0

/-- `Graph.find_closest_anime`: Dijkstra distances, minimum-distance
candidates, the ±100 popularity window filter against the source's rank,
then the most popular survivor (or `None`). -/
def Graph.find_closest_anime (g : Graph) (start : Nat) : Option Nat :=
  if ¬ g.hasVertex start then none
  else
    let dist := dijkstraFrom g start
    let cands := (closestCandidates dist start).2
    let filtered := cands.filter (fun a => popWithin (g.popGet a) (g.popGet start))
    match filtered with
    | [] => none
    | x :: xs => some (minByPop g x xs)

/-- Sort key order used by `get_top_n_recommendations`:
`(distance, popularity.get(id, inf))`, compared lexicographically. -/
def topKeyLe (g : Graph) (a b : Nat × Nat) : Bool :=
  a.2 < b.2 || (a.2 = b.2 && popLe (g.popGet a.1) (g.popGet b.1))

/-- Stable insertion of `x` into a sorted list: `x` goes after every
element `y` with `le y x`, so ties keep their original order. -/
def insertSorted {α : Type} (le : α → α → Bool) (x : α) : List α → List α
  | [] => [x]
  | y :: ys => if le y x then y :: insertSorted le x ys else x :: y :: ys

/-- Stable sort by a total preorder, embedding Python's stable `sorted`. -/
def sortedBy {α : Type} (le : α → α → Bool) (l : List α) : List α :=
  l.foldl (fun acc x => insertSorted le x acc) []

/-- `Graph.get_top_n_recommendations`: Dijkstra distances; keep the
non-source items with finite distance; sort by
`(distance, popularity.get(id, inf))` (stably); return the first `n` ids.
No popularity-window filter is applied. -/
def Graph.get_top_n_recommendations (g : Graph) (start : Nat) (n : Nat) : List Nat :=
  if ¬ g.hasVertex start then []
  else
    let dist := dijkstraFrom g start
    let candidates := dist.filterMap
      (fun p => match p.2 with
        | some d => if p.1 ≠ start then some (p.1, d) else none
        | none => none)
    ((sortedBy (topKeyLe g) candidates).take n).map Prod.fst

/-- One catalog row as consumed by `build_anime_graph`, after the
line-level CSV field splitting (which is pure string plumbing): id,
three title fields, synonym/genre lists, studio (empty string when
absent), related ids, and the parsed popularity (`none` when `int(...)`
raised `ValueError`, i.e. the `math.inf` sentinel). -/
structure Record where
  anime_id : Nat
  title : String
  title_english : String
  title_japanese : String
  title_synonyms : List String
  genre : List String
  studio : String
  related : List Nat
  popularity : Option Int
deriving Repr, DecidableEq

/-- The per-row `data[anime_id]` tuple `(title, genres, studio, related)`. -/
abbrev RowData := String × List String × String × List Nat

/-- The related-id list of a stored `data` tuple. -/
def rowRelated (r : RowData) : List Nat := r.2.2.2

/-- `title.strip().lower()`, the normalization applied both when
registering titles and when resolving user input: drop leading and
trailing whitespace, then lowercase every character. -/
def normalizeTitle (s : String) : String :=
  ⟨(((s.data.dropWhile Char.isWhitespace).reverse.dropWhile Char.isWhitespace).reverse).map
      Char.toLower⟩

/-- All title strings a row registers into `title_to_id`:
`[title, title_english, title_japanese] + title_synonyms`. -/
def rowTitles (r : Record) : List String :=
  [r.title, r.title_english, r.title_japanese] ++ r.title_synonyms

/-- `d[key].add(x)` on a dict of sets, creating the set when absent;
a set is embedded as its insertion-ordered list of distinct members. -/
def addToGroup (groups : List (String × List Nat)) (k : String) (x : Nat) :
    List (String × List Nat) :=
  match lookupA groups k with
  | some members => if members.contains x then groups else setA groups k (members ++ [x])
  | none => groups ++ [(k, [x])]

/-- The accumulating state of the row-reading loop of `build_anime_graph`. -/
structure BuildState where
  graph : Graph
  data : List (Nat × RowData)
  genre_to_anime : List (String × List Nat)
  studio_to_anime : List (String × List Nat)
  title_to_id : List (String × Nat)
deriving Repr, DecidableEq

/-- The body of the row-reading loop: register the vertex and its
popularity, store the data tuple, register every normalized title, and
index the row under each of its genres and (when non-empty) its studio. -/
def processRow (st : BuildState) (r : Record) : BuildState :=
  { graph := st.graph.add_vertex r.anime_id r.popularity,
    data := setA st.data r.anime_id (r.title, r.genre, r.studio, r.related),
    genre_to_anime := r.genre.foldl (fun m ge => addToGroup m ge r.anime_id) st.genre_to_anime,
    studio_to_anime :=
      if r.studio ≠ "" then addToGroup st.studio_to_anime r.studio r.anime_id
      else st.studio_to_anime,
    title_to_id :=
      (rowTitles r).foldl (fun m t => setA m (normalizeTitle t) r.anime_id) st.title_to_id }

/-- Unordered pair enumeration `for i: for j in range(i+1, ...)`. -/
def pairsOf : List Nat → List (Nat × Nat)
  | [] => []
  | x :: xs => xs.map (fun y => (x, y)) ++ pairsOf xs

/-- One grouping pass: for every group, add an edge of weight `w` between
every unordered pair of its members. -/
def addGroupEdges (g : Graph) (groups : List (String × List Nat)) (w : Nat) : Graph :=
  groups.foldl (fun g1 grp => (pairsOf grp.2).foldl (fun g2 p => g2.add_edge p.1 p.2 w) g1) g

/-- The related pass: for every stored row, add a weight-1 edge to each
related id that is itself a `data` key. -/
def addRelatedEdges (g : Graph) (data : List (Nat × RowData)) : Graph :=
  data.foldl
    (fun g1 e =>
      (rowRelated e.2).foldl
        (fun g2 r => if hasKey data r then g2.add_edge e.1 r 1 else g2) g1)
    g

/-- The state accumulated by the row-reading loop of `build_anime_graph`
over all rows, starting from an empty graph and empty indices. -/
def buildState (rows : List Record) : BuildState :=
  rows.foldl processRow ⟨Graph.empty, [], [], [], []⟩

/-- `build_anime_graph`: read all rows, then run the genre (weight 2),
studio (weight 3) and related (weight 1) edge passes in that order.
Returns the graph, the `title_to_id` index and the `data` table. -/
def build_anime_graph (rows : List Record) :
    Graph × List (String × Nat) × List (Nat × RowData) :=
  let st := buildState rows
  let g1 := addGroupEdges st.graph st.genre_to_anime 2
  let g2 := addGroupEdges g1 st.studio_to_anime 3
  let g3 := addRelatedEdges g2 st.data
  (g3, st.title_to_id, st.data)

/-- Items `a` and `b` are indexed under a common genre after the row pass
(the genre pass adds a weight-2 edge for exactly these pairs). -/
def sharesGenre (rows : List Record) (a b : Nat) : Prop :=
  ∃ grp ∈ (buildState rows).genre_to_anime, a ∈ grp.2 ∧ b ∈ grp.2

/-- Items `a` and `b` are indexed under a common studio after the row pass
(the studio pass adds a weight-3 edge for exactly these pairs). -/
def sharesStudio (rows : List Record) (a b : Nat) : Prop :=
  ∃ grp ∈ (buildState rows).studio_to_anime, a ∈ grp.2 ∧ b ∈ grp.2

/-- One of `a`, `b` lists the other among its stored related ids, and the
listed id is itself a stored key (the related pass adds a weight-1 edge
for exactly these pairs). -/
def relatedPair (rows : List Record) (a b : Nat) : Prop :=
  ∃ e ∈ (buildState rows).data, ∃ r ∈ rowRelated e.2,
    hasKey (buildState rows).data r = true ∧ ((e.1 = a ∧ r = b) ∨ (e.1 = b ∧ r = a))

/-- Title resolution as performed by the event loop of `main.py`:
normalize the input and look it up in `title_to_id`. -/
def resolveTitle (title_to_id : List (String × Nat)) (s : String) : Option Nat :=
  lookupA title_to_id (normalizeTitle s)

/-- A walk of total cost `c` from `u` to `v` following stored adjacency
entries. -/
inductive Walk (g : Graph) : Nat → Nat → Nat → Prop
  | nil (v : Nat) : Walk g v v 0
  | cons {u v t : Nat} {w c : Nat} :
      lookupA (g.nbrs u) v = some w → Walk g v t c → Walk g u t (w + c)

/-- Some walk connects `s` to `v`. -/
def Reachable (g : Graph) (s v : Nat) : Prop := ∃ c, Walk g s v c

/-- `d` is the least total edge weight over all walks from `s` to `v` —
the brute-force reference notion of shortest-path distance. -/
def ShortestDist (g : Graph) (s v : Nat) (d : Nat) : Prop :=
  Walk g s v d ∧ ∀ c, Walk g s v c → d ≤ c

/-- Structural sanity of a graph state: vertex keys are distinct, each
neighbour dict has distinct keys, and every neighbour is registered.
Every graph reachable through the construction API satisfies this. -/
def WellFormed (g : Graph) : Prop :=
  (keysA g.vertices).Nodup ∧
  ∀ p ∈ g.vertices, (keysA p.2).Nodup ∧ ∀ q ∈ p.2, g.hasVertex q.1 = true

instance : DecidablePred WellFormed := fun g => by
  unfold WellFormed
  infer_instance

/-- Distance of `x` from `s` in the computed table (`inf` when the key is
absent, which does not happen for registered vertices). -/
def distOf (g : Graph) (s x : Nat) : Option Nat :=
  (lookupA (dijkstraFrom g s) x).join

/-- Python `<=` on distances-or-`inf` (`inf <= inf` is true). -/
def distLe (p q : Option Nat) : Bool :=
  match p, q with
  | some a, some b => a ≤ b
  | _, none => true
  | none, some _ => false

/-- Modelled from the spec, for comparison with the code's sort key in
claim C3: the absolute popularity-rank difference between a candidate and
the source (`none` when either rank is Unknown). -/
def specPopDiff (g : Graph) (s x : Nat) : Option Nat :=
  match g.popGet x, g.popGet s with
  | some a, some b => some (a - b).natAbs
  | _, _ => none

/-- Modelled from the spec, for comparison with the code's sort key in
claim C3: ordering by the pair (shortest-path distance from the source,
absolute popularity-rank difference from the source), infinities largest. -/
def specKeyLe (g : Graph) (s a b : Nat) : Bool :=
  distLt (distOf g s a) (distOf g s b) ||
    (distEq (distOf g s a) (distOf g s b) && distLe (specPopDiff g s a) (specPopDiff g s b))

/-- Two records with no shared attributes: the built graph has two
registered vertices and no edges at all. -/
def rowsNoEdges : List Record :=
  [⟨1, "A", "", "", [], [], "", [], some 10⟩, ⟨2, "B", "", "", [], [], "", [], some 20⟩]

/-- The no-edge graph built from `rowsNoEdges`. -/
def gNoEdges : Graph := (build_anime_graph rowsNoEdges).1

/-- Two records sharing a genre whose popularity ranks differ by 490. -/
def rowsFarPop : List Record :=
  [⟨1, "A", "", "", [], ["g"], "", [], some 10⟩, ⟨2, "B", "", "", [], ["g"], "", [], some 500⟩]

/-- Graph with one edge and a 490-unit popularity gap. -/
def gFarPop : Graph := (build_anime_graph rowsFarPop).1

/-- Like `rowsFarPop` but the source row's popularity failed to parse. -/
def rowsUnknownPop : List Record :=
  [⟨1, "A", "", "", [], ["g"], "", [], none⟩, ⟨2, "B", "", "", [], ["g"], "", [], some 500⟩]

/-- Graph whose source vertex has the Unknown popularity sentinel. -/
def gUnknownPop : Graph := (build_anime_graph rowsUnknownPop).1

/-- Three records sharing one genre; from source 1 both others are at
distance 2, the candidate ranks being 10 and 150 against the source's
100. -/
def rowsSortKey : List Record :=
  [⟨1, "A", "", "", [], ["g"], "", [], some 100⟩,
   ⟨2, "B", "", "", [], ["g"], "", [], some 10⟩,
   ⟨3, "C", "", "", [], ["g"], "", [], some 150⟩]

/-- Graph on which the code's sort key and the claimed sort key disagree. -/
def gSortKey : Graph := (build_anime_graph rowsSortKey).1

/-- Three records sharing one genre where both candidates tie on distance
and rank, registered in the order 5 then 4. -/
def rowsTie : List Record :=
  [⟨1, "A", "", "", [], ["g"], "", [], some 100⟩,
   ⟨5, "B", "", "", [], ["g"], "", [], some 7⟩,
   ⟨4, "C", "", "", [], ["g"], "", [], some 7⟩]

/-- Graph on which fully tied candidates come out in registration order. -/
def gTie : Graph := (build_anime_graph rowsTie).1

/-- A single record listing its own identifier among its related ids. -/
def rowsSelfRel : List Record := [⟨1, "A", "", "", [], [], "", [1], some 3⟩]

/-- The graph built from the self-related record. -/
def gSelfRel : Graph := (build_anime_graph rowsSelfRel).1

/-- First record of the alias-collision pair: canonical title "A". -/
def rowAliasA : Record := ⟨1, "A", "", "", [], [], "", [], some 1⟩

/-- Second record of the alias-collision pair: its synonym list contains
"A", which normalizes to the same key as record 1's canonical title. -/
def rowAliasB : Record := ⟨2, "B", "", "", ["A"], [], "", [], some 2⟩

instance (rows : List Record) (a b : Nat) : Decidable (sharesGenre rows a b) := by
  unfold sharesGenre
  infer_instance

instance (rows : List Record) (a b : Nat) : Decidable (sharesStudio rows a b) := by
  unfold sharesStudio
  infer_instance

instance (rows : List Record) (a b : Nat) : Decidable (relatedPair rows a b) := by
  unfold relatedPair
  infer_instance

/-- Two records that share a genre and are also explicitly related: the
pair on which the related pass must win over the genre pass. -/
def rowsPrecedence : List Record :=
  [⟨1, "A", "", "", [], ["g"], "", [2], some 1⟩, ⟨2, "B", "", "", [], ["g"], "", [], some 2⟩]

/-- Records for the alias round-trip witness: item 1 carries a synonym
"Alpha"; no other record registers a colliding normalized title. -/
def rowsAliasOk : List Record :=
  [⟨1, "A", "", "", ["Alpha"], [], "", [], some 1⟩, ⟨2, "B", "", "", [], [], "", [], some 2⟩]

/-- The code's top-N ordering key lifted to identifiers: lexicographic on
(computed distance from the source, the candidate's own popularity
rank), infinities largest — exactly the key `get_top_n_recommendations`
sorts by. -/
def codeKeyLe (g : Graph) (s a b : Nat) : Bool :=
  distLt (distOf g s a) (distOf g s b) ||
    (distEq (distOf g s a) (distOf g s b) && popLe (g.popGet a) (g.popGet b))

/-- Loop invariant of the source's Dijkstra loop, tying the queue, the
tentative distance table and the visited set to true walk costs:
the table keys are the vertex keys; the source stays at 0; every finite
table entry is attained by some walk; every queue entry is an upper bound
on its vertex's table entry; every unvisited vertex with a finite entry
is represented in the queue; every visited vertex's entry lower-bounds
all walk costs to it; and every edge out of a visited vertex into an
unvisited one has been relaxed. -/
structure DijkInv (g : Graph) (s : Nat) (pq : List (Nat × Nat))
    (dist : List (Nat × Option Nat)) (visited : List Nat) : Prop where
  keys : keysA dist = keysA g.vertices
  source0 : lookupA dist s = some (some 0)
  attain : ∀ v d, lookupA dist v = some (some d) → Walk g s v d
  queuedLB : ∀ e ∈ pq, ∃ d', lookupA dist e.2 = some (some d') ∧ d' ≤ e.1
  queued : ∀ v d, v ∉ visited → lookupA dist v = some (some d) → (d, v) ∈ pq
  settledLB : ∀ v ∈ visited, ∃ d, lookupA dist v = some (some d) ∧
      ∀ c, Walk g s v c → d ≤ c
  frontier : ∀ u ∈ visited, ∀ q ∈ g.nbrs u, q.1 ∉ visited →
      ∃ du dt, lookupA dist u = some (some du) ∧ lookupA dist q.1 = some (some dt) ∧
        dt ≤ du + q.2

/-! ### Association-list lemmas -/

theorem lookupA_append {κ β : Type} [DecidableEq κ] (l l' : List (κ × β)) (k : κ) :
    lookupA (l ++ l') k = (lookupA l k).or (lookupA l' k) := by
  induction l with
  | nil => simp [lookupA]
  | cons p t ih => by_cases hp : p.1 = k <;> simp [lookupA, hp, ih]

theorem lookupA_isSome_iff {κ β : Type} [DecidableEq κ] {l : List (κ × β)} {k : κ} :
    (lookupA l k).isSome = true ↔ k ∈ keysA l := by
  induction l with
  | nil => simp [lookupA, keysA]
  | cons p t ih =>
    by_cases hp : p.1 = k
    · simp [lookupA, keysA, hp]
    · have hk : ¬ k = p.1 := fun h => hp h.symm
      simp [lookupA, keysA, hp, hk] at ih ⊢
      simpa [keysA] using ih

theorem lookupA_eq_none_iff {κ β : Type} [DecidableEq κ] {l : List (κ × β)} {k : κ} :
    lookupA l k = none ↔ k ∉ keysA l := by
  rw [← lookupA_isSome_iff]
  cases lookupA l k <;> simp

theorem hasKey_iff {κ β : Type} [DecidableEq κ] {l : List (κ × β)} {k : κ} :
    hasKey l k = true ↔ k ∈ keysA l := by
  rw [hasKey, lookupA_isSome_iff]

theorem lookupA_mem {κ β : Type} [DecidableEq κ] {l : List (κ × β)} {k : κ} {v : β}
    (h : lookupA l k = some v) : (k, v) ∈ l := by
  induction l with
  | nil => simp [lookupA] at h
  | cons p t ih =>
    by_cases hp : p.1 = k
    · simp only [lookupA, hp, if_true, Option.some.injEq] at h
      exact List.mem_cons.mpr (Or.inl (by rw [← h, ← hp]))
    · simp only [lookupA, hp, if_false] at h
      exact List.mem_cons_of_mem _ (ih h)

theorem mem_lookupA {κ β : Type} [DecidableEq κ] {l : List (κ × β)} {k : κ} {v : β}
    (hnd : (keysA l).Nodup) (h : (k, v) ∈ l) : lookupA l k = some v := by
  induction l with
  | nil => simp at h
  | cons p t ih =>
    simp only [keysA, List.map_cons, List.nodup_cons] at hnd
    rcases List.mem_cons.mp h with rfl | h
    · simp [lookupA]
    · have hp : ¬ p.1 = k := fun hh =>
        hnd.1 (by rw [hh]; exact List.mem_map.mpr ⟨(k, v), h, rfl⟩)
      simpa [lookupA, hp] using ih hnd.2 h

theorem keysA_mapOverwrite {κ β : Type} [DecidableEq κ] (l : List (κ × β)) (k : κ) (v : β) :
    keysA (l.map (fun p => if p.1 = k then (k, v) else p)) = keysA l := by
  induction l with
  | nil => rfl
  | cons p t ih =>
    by_cases hp : p.1 = k
    · simpa [keysA, hp] using by simpa [keysA] using ih
    · simpa [keysA, hp] using by simpa [keysA] using ih

theorem keysA_setA {κ β : Type} [DecidableEq κ] (l : List (κ × β)) (k : κ) (v : β) :
    keysA (setA l k v) = if k ∈ keysA l then keysA l else keysA l ++ [k] := by
  rw [setA]
  by_cases h : k ∈ keysA l
  · rw [if_pos (hasKey_iff.mpr h), if_pos h, keysA_mapOverwrite]
  · rw [if_neg (fun hh => h (hasKey_iff.mp hh)), if_neg h]
    simp [keysA]

theorem lookupA_setA_self {κ β : Type} [DecidableEq κ] (l : List (κ × β)) (k : κ) (v : β) :
    lookupA (setA l k v) k = some v := by
  rw [setA]
  by_cases h : hasKey l k = true
  · rw [if_pos h]
    rw [hasKey_iff] at h
    induction l with
    | nil => simp [keysA] at h
    | cons p t ih =>
      by_cases hp : p.1 = k
      · simp [lookupA, hp]
      · have hk : ¬ k = p.1 := fun hh => hp hh.symm
        simp only [keysA, List.map_cons, List.mem_cons] at h
        rcases h with h | h
        · exact absurd h hk
        · simpa [lookupA, hp] using ih h
  · rw [if_neg h]
    have hn : lookupA l k = none := by
      rw [lookupA_eq_none_iff]
      exact fun hh => h (hasKey_iff.mpr hh)
    rw [lookupA_append, hn]
    simp [lookupA]

theorem lookupA_mapOverwrite_ne {κ β : Type} [DecidableEq κ] (l : List (κ × β)) {k k' : κ}
    (v : β) (h : k' ≠ k) :
    lookupA (l.map (fun p => if p.1 = k then (k, v) else p)) k' = lookupA l k' := by
  induction l with
  | nil => rfl
  | cons p t ih =>
    by_cases hp : p.1 = k
    · have h1 : ¬ k = k' := fun hh => h hh.symm
      have h2 : ¬ p.1 = k' := by rw [hp]; exact h1
      simp [lookupA, hp, h1, h2, ih]
    · by_cases hp' : p.1 = k'
      · simp [lookupA, hp, hp', h]
      · simp [lookupA, hp, hp', ih]

theorem lookupA_setA_ne {κ β : Type} [DecidableEq κ] (l : List (κ × β)) {k k' : κ} (v : β)
    (h : k' ≠ k) : lookupA (setA l k v) k' = lookupA l k' := by
  rw [setA]
  by_cases hk : hasKey l k = true
  · rw [if_pos hk, lookupA_mapOverwrite_ne l v h]
  · rw [if_neg hk, lookupA_append]
    have h1 : lookupA [(k, v)] k' = none := by simp [lookupA, Ne.symm h]
    rw [h1, Option.or_none]

/-! ### Priority-queue lemmas -/

theorem pairLe_refl (a : Nat × Nat) : pairLe a a = true := by
  simp [pairLe]

theorem pairLe_trans {a b c : Nat × Nat} (h1 : pairLe a b = true)
    (h2 : pairLe b c = true) : pairLe a c = true := by
  obtain ⟨a1, a2⟩ := a
  obtain ⟨b1, b2⟩ := b
  obtain ⟨c1, c2⟩ := c
  simp only [pairLe, Bool.or_eq_true, Bool.and_eq_true, decide_eq_true_eq] at h1 h2 ⊢
  omega

theorem pairLe_of_not_pairLe {a b : Nat × Nat} (h : ¬ pairLe a b = true) :
    pairLe b a = true := by
  obtain ⟨a1, a2⟩ := a
  obtain ⟨b1, b2⟩ := b
  simp only [pairLe, Bool.or_eq_true, Bool.and_eq_true, decide_eq_true_eq] at h ⊢
  omega

theorem popMin_eq_none_iff {pq : List (Nat × Nat)} : popMin pq = none ↔ pq = [] := by
  cases pq with
  | nil => simp [popMin]
  | cons e es =>
    rw [popMin]
    constructor
    · intro h
      split at h
      · simp at h
      · split at h <;> simp at h
    · intro h
      simp at h

theorem popMin_perm {pq : List (Nat × Nat)} {m : Nat × Nat}
    {rest : List (Nat × Nat)} (h : popMin pq = some (m, rest)) :
    pq.Perm (m :: rest) := by
  induction pq generalizing m rest with
  | nil => simp [popMin] at h
  | cons e es ih =>
    rw [popMin] at h
    split at h
    · rename_i hes
      have hnil : es = [] := popMin_eq_none_iff.mp hes
      subst hnil
      cases h
      exact List.Perm.refl _
    · rename_i m' rest' hes
      split at h
      · cases h
        exact List.Perm.refl _
      · cases h
        exact ((ih hes).cons e).trans (List.Perm.swap m e rest')

theorem popMin_le {pq : List (Nat × Nat)} {m : Nat × Nat}
    {rest : List (Nat × Nat)} (h : popMin pq = some (m, rest)) :
    ∀ x ∈ pq, pairLe m x = true := by
  induction pq generalizing m rest with
  | nil => simp [popMin] at h
  | cons e es ih =>
    rw [popMin] at h
    split at h
    · rename_i hes
      have hnil : es = [] := popMin_eq_none_iff.mp hes
      subst hnil
      cases h
      intro x hx
      simp only [List.mem_singleton] at hx
      subst hx
      exact pairLe_refl x
    · rename_i m' rest' hes
      split at h <;> rename_i hle <;> cases h <;> intro x hx <;>
          rcases List.mem_cons.mp hx with rfl | hx
      · exact pairLe_refl x
      · exact pairLe_trans hle (ih hes x hx)
      · exact pairLe_of_not_pairLe hle
      · exact ih hes x hx

/-! ### Claim C9: add_edge with an unregistered endpoint is a no-op -/

/-- Claim C9: for every graph state, weight and pair of identifiers with at
least one unregistered endpoint, `add_edge` leaves the whole graph state
(vertex set, adjacency, popularity) unchanged, and (being a total Lean
function) raises nothing. -/
theorem add_edge_unregistered_no_op (g : Graph) (a b : Nat) (w : Nat)
    (h : g.hasVertex a = false ∨ g.hasVertex b = false) :
    g.add_edge a b w = g := by
  rw [Graph.add_edge, if_neg]
  rcases h with h | h <;> simp [h]

/-- Witness for C9 at a concrete graph: vertex 1 registered, 2 not. -/
theorem add_edge_unregistered_no_op_witness :
    (Graph.mk [(1, [])] [(1, some 5)]).hasVertex 2 = false ∧
      (Graph.mk [(1, [])] [(1, some 5)]).add_edge 1 2 7 = Graph.mk [(1, [])] [(1, some 5)] :=
  ⟨by decide, add_edge_unregistered_no_op _ 1 2 7 (Or.inr (by decide))⟩

/-! ### Claim C10: unknown source identifier -/

/-- Claim C10: an unregistered source makes `find_closest_anime` return
`None` and `get_top_n_recommendations` return the empty list; neither
errors. -/
theorem unknown_source_results (g : Graph) (s : Nat) (n : Nat)
    (h : g.hasVertex s = false) :
    g.find_closest_anime s = none ∧ g.get_top_n_recommendations s n = [] := by
  constructor
  · rw [Graph.find_closest_anime, if_pos]
    simp [h]
  · rw [Graph.get_top_n_recommendations, if_pos]
    simp [h]

/-- Witness for C10 at a concrete graph and unknown id 9. -/
theorem unknown_source_results_witness :
    (Graph.mk [(1, [])] [(1, some 5)]).hasVertex 9 = false ∧
      (Graph.mk [(1, [])] [(1, some 5)]).find_closest_anime 9 = none ∧
      (Graph.mk [(1, [])] [(1, some 5)]).get_top_n_recommendations 9 3 = [] :=
  ⟨by decide, unknown_source_results (Graph.mk [(1, [])] [(1, some 5)]) 9 3 (by decide)⟩

/-! ### Claim C8: unknown source popularity empties the closest filter -/

theorem popWithin_right_none (p : Option Int) : popWithin p none = false := by
  cases p <;> rfl

/-- Claim C8: when the registered source's popularity rank is the Unknown
sentinel, the popularity-filtered candidate set of `find_closest_anime`
is empty (every float comparison against `inf` fails) and the result is
`None`, whatever the candidates' own ranks. -/
theorem unknown_popularity_closest (g : Graph) (s : Nat)
    (hs : g.hasVertex s = true) (hp : g.popGet s = none) :
    (closestCandidates (dijkstraFrom g s) s).2.filter
        (fun a => popWithin (g.popGet a) (g.popGet s)) = [] ∧
      g.find_closest_anime s = none := by
  have hf : ∀ l : List Nat,
      l.filter (fun a => popWithin (g.popGet a) (g.popGet s)) = [] := by
    intro l
    rw [List.filter_eq_nil_iff]
    intro a _
    rw [hp, popWithin_right_none]
    simp
  refine ⟨hf _, ?_⟩
  rw [Graph.find_closest_anime, if_neg (by simp [hs])]
  simp only [hf]

/-- Witness for C8: source 1 registered with Unknown popularity; its neighbour
vertex 2 has a known rank. -/
theorem unknown_popularity_closest_witness :
    (Graph.mk [(1, [(2, 1)]), (2, [(1, 1)])] [(1, none), (2, some 5)]).hasVertex 1 = true ∧
      (Graph.mk [(1, [(2, 1)]), (2, [(1, 1)])] [(1, none), (2, some 5)]).popGet 1 = none ∧
      ((closestCandidates
          (dijkstraFrom (Graph.mk [(1, [(2, 1)]), (2, [(1, 1)])] [(1, none), (2, some 5)]) 1)
          1).2.filter
        (fun a =>
          popWithin
            ((Graph.mk [(1, [(2, 1)]), (2, [(1, 1)])] [(1, none), (2, some 5)]).popGet a)
            ((Graph.mk [(1, [(2, 1)]), (2, [(1, 1)])] [(1, none), (2, some 5)]).popGet 1)) = [] ∧
        (Graph.mk [(1, [(2, 1)]), (2, [(1, 1)])] [(1, none), (2, some 5)]).find_closest_anime 1 =
          none) :=
  ⟨by decide, by decide,
    unknown_popularity_closest (Graph.mk [(1, [(2, 1)]), (2, [(1, 1)])] [(1, none), (2, some 5)])
      1 (by decide) (by decide)⟩

/-! ### Counterexamples on concrete built graphs (claims C1, C2, C3, C6)
and the failing input of claim C5 -/

/-- Claim C1 counterexample: in `gNoEdges` the registered source 1 has no
registered edges, yet `find_closest_anime` returns vertex 2 — an
identifier, not `None`.  With every other distance infinite, the float
comparison `inf == inf` admits every other vertex as a candidate, and 2
passes the popularity window. -/
theorem closest_no_edges_counterexample :
    gNoEdges.hasVertex 1 = true ∧ gNoEdges.nbrs 1 = [] ∧
      gNoEdges.find_closest_anime 1 = some 2 := by
  decide

/-- Claim C2 counterexample: `get_top_n_recommendations` applies no
popularity window — on `gFarPop` it returns vertex 2 whose rank differs
from the source's by 490 > 100, and on `gUnknownPop` the source's rank is
Unknown yet the returned list is non-empty. -/
theorem topn_no_window_counterexample :
    gFarPop.get_top_n_recommendations 1 5 = [2] ∧
      popWithin (gFarPop.popGet 2) (gFarPop.popGet 1) = false ∧
      gUnknownPop.popGet 1 = none ∧
      gUnknownPop.get_top_n_recommendations 1 5 = [2] := by
  decide

/-- Claim C3 counterexample: the code sorts by the candidate's own
popularity rank, not by the rank difference from the source — on
`gSortKey` the returned list `[2, 3]` is not sorted by the claimed key
(a difference of 90 precedes one of 50 at equal distance) — and full
ties come out in registration order `[5, 4]`, not identifier order. -/
theorem topn_sort_counterexample :
    gSortKey.get_top_n_recommendations 1 2 = [2, 3] ∧
      ¬ List.Pairwise (fun a b => specKeyLe gSortKey 1 a b = true)
          (gSortKey.get_top_n_recommendations 1 2) ∧
      gTie.get_top_n_recommendations 1 2 = [5, 4] ∧
      specKeyLe gTie 1 5 4 = true ∧ specKeyLe gTie 1 4 5 = true := by
  decide

/-- Claim C5 failing input: a record listing its own id among its related
ids produces a self-loop — the built graph stores an edge of weight 1
from vertex 1 to itself, violating the no-self-loop invariant (and the
documented precondition `item1 != item2` of `add_edge`). -/
theorem self_loop_failing_input :
    gSelfRel.weight 1 1 = some 1 := by
  decide

/-- Claim C6 counterexample: the canonical title "A" of record 1 is
registered in the alias index, but a later record's synonym collides
with it (last writer wins), so resolving "A" returns id 2, not 1. -/
theorem alias_collision_counterexample :
    rowAliasA.title ∈ rowTitles rowAliasA ∧ rowAliasA.anime_id = 1 ∧
      resolveTitle (build_anime_graph [rowAliasA, rowAliasB]).2.1 rowAliasA.title = some 2 := by
  decide

/-! ### Edge-insertion lemmas (for claims C4 and C5) -/

theorem keysA_setNbr (vs : List (Nat × List (Nat × Nat))) (u k : Nat) (w : Nat) :
    keysA (setNbr vs u k w) = keysA vs := by
  induction vs with
  | nil => rfl
  | cons p t ih =>
    by_cases hp : p.1 = u <;> simp only [setNbr, keysA, List.map_cons, hp] at ih ⊢ <;>
      simp [hp, ih]

theorem lookupA_setNbr (vs : List (Nat × List (Nat × Nat))) (u k : Nat) (w : Nat) (a : Nat) :
    lookupA (setNbr vs u k w) a =
      if a = u then (lookupA vs a).map (fun nb => setA nb k w) else lookupA vs a := by
  induction vs with
  | nil =>
    simp only [setNbr, List.map_nil, lookupA]
    split <;> rfl
  | cons p t ih =>
    simp only [setNbr] at ih ⊢
    rw [List.map_cons]
    by_cases hpu : p.1 = u <;> by_cases hpa : p.1 = a
    · have hau : a = u := by rw [← hpa, hpu]
      rw [if_pos hpu]
      simp [lookupA, hpa, hau]
    · rw [if_pos hpu]
      simp only [lookupA, hpa, if_false]
      exact ih
    · have hau : ¬ a = u := by rw [← hpa]; exact hpu
      rw [if_neg hpu]
      simp [lookupA, hpa, hau]
    · rw [if_neg hpu]
      simp only [lookupA, hpa, if_false]
      exact ih

theorem add_edge_popularity (g : Graph) (x y : Nat) (w : Nat) :
    (g.add_edge x y w).popularity = g.popularity := by
  rw [Graph.add_edge]
  split <;> rfl

theorem add_edge_keys (g : Graph) (x y : Nat) (w : Nat) :
    keysA (g.add_edge x y w).vertices = keysA g.vertices := by
  rw [Graph.add_edge]
  split
  · simp [keysA_setNbr]
  · rfl

theorem hasKey_eq_of_keysA_eq {κ β γ : Type} [DecidableEq κ] {l : List (κ × β)}
    {l' : List (κ × γ)} (h : keysA l = keysA l') (k : κ) : hasKey l k = hasKey l' k := by
  rw [Bool.eq_iff_iff, hasKey_iff, hasKey_iff, h]

theorem add_edge_hasVertex (g : Graph) (x y : Nat) (w : Nat) (v : Nat) :
    (g.add_edge x y w).hasVertex v = g.hasVertex v :=
  hasKey_eq_of_keysA_eq (add_edge_keys g x y w) v

theorem weight_add_edge (g : Graph) (x y : Nat) (w : Nat) {a b : Nat} (hab : a ≠ b) :
    (g.add_edge x y w).weight a b =
      if g.hasVertex x = true ∧ g.hasVertex y = true ∧ ((x = a ∧ y = b) ∨ (x = b ∧ y = a))
      then some w else g.weight a b := by
  rw [Graph.add_edge]
  by_cases hreg : (g.hasVertex x && g.hasVertex y) = true
  case neg =>
    rw [if_neg hreg, if_neg]
    rintro ⟨h1, h2, -⟩
    exact hreg (by simp [h1, h2])
  rw [if_pos hreg]
  simp only [Bool.and_eq_true] at hreg
  simp only [Graph.weight, Graph.nbrs]
  rw [lookupA_setNbr, lookupA_setNbr]
  by_cases hax : a = x <;> by_cases hay : a = y
  · -- a = x = y: both updates hit key a, but the looked-up key b differs
    rw [if_pos hay, if_pos hax]
    obtain ⟨nb, hnb⟩ : ∃ nb, lookupA g.vertices a = some nb := by
      have := hreg.1
      rw [Graph.hasVertex, hasKey, ← hax, Option.isSome_iff_exists] at this
      exact this
    rw [hnb]
    have hbx : ¬ b = x := by rw [← hax]; exact fun h => hab h.symm
    have hby : ¬ b = y := by rw [← hay]; exact fun h => hab h.symm
    simp only [Option.map_some', Option.getD_some]
    rw [lookupA_setA_ne _ _ hbx, lookupA_setA_ne _ _ hby, if_neg]
    rintro ⟨-, -, ⟨-, h2⟩ | ⟨h1, -⟩⟩
    · exact hby h2.symm
    · exact hbx h1.symm
  · -- a = x only: the first update hits key a, writing weight at key y
    rw [if_neg hay, if_pos hax]
    obtain ⟨nb, hnb⟩ : ∃ nb, lookupA g.vertices a = some nb := by
      have := hreg.1
      rw [Graph.hasVertex, hasKey, ← hax, Option.isSome_iff_exists] at this
      exact this
    rw [hnb]
    simp only [Option.map_some', Option.getD_some]
    by_cases hby : b = y
    · rw [hby, lookupA_setA_self, if_pos]
      exact ⟨hreg.1, hreg.2, Or.inl ⟨hax.symm, rfl⟩⟩
    · rw [lookupA_setA_ne _ _ hby, if_neg]
      rintro ⟨-, -, ⟨-, h2⟩ | ⟨h1, -⟩⟩
      · exact hby h2.symm
      · exact hab (hax.trans h1)
  · -- a = y only: the second update hits key a, writing weight at key x
    rw [if_pos hay, if_neg hax]
    obtain ⟨nb, hnb⟩ : ∃ nb, lookupA g.vertices a = some nb := by
      have := hreg.2
      rw [Graph.hasVertex, hasKey, ← hay, Option.isSome_iff_exists] at this
      exact this
    rw [hnb]
    simp only [Option.map_some', Option.getD_some]
    by_cases hbx : b = x
    · rw [hbx, lookupA_setA_self, if_pos]
      exact ⟨hreg.1, hreg.2, Or.inr ⟨rfl, hay.symm⟩⟩
    · rw [lookupA_setA_ne _ _ hbx, if_neg]
      rintro ⟨-, -, ⟨h1, -⟩ | ⟨h2, -⟩⟩
      · exact hax h1.symm
      · exact hbx h2.symm
  · -- neither endpoint is a: the adjacency of a is untouched
    rw [if_neg hay, if_neg hax, if_neg]
    rintro ⟨-, -, ⟨h1, -⟩ | ⟨-, h2⟩⟩
    · exact hax h1.symm
    · exact hay h2.symm

theorem keysA_vertices_foldl {α : Type} (P : List α) (step : Graph → α → Graph)
    (hstep : ∀ g' p, keysA (step g' p).vertices = keysA g'.vertices) (g : Graph) :
    keysA (P.foldl step g).vertices = keysA g.vertices := by
  induction P generalizing g with
  | nil => rfl
  | cons e P ih => rw [List.foldl_cons, ih, hstep]

theorem hasVertex_foldl {α : Type} (P : List α) (step : Graph → α → Graph)
    (hstep : ∀ g' p, keysA (step g' p).vertices = keysA g'.vertices) (g : Graph) (v : Nat) :
    (P.foldl step g).hasVertex v = g.hasVertex v :=
  hasKey_eq_of_keysA_eq (keysA_vertices_foldl P step hstep g) v

theorem weight_foldl_pairs (g : Graph) (P : List (Nat × Nat)) (w : Nat) {a b : Nat}
    (hab : a ≠ b) :
    (P.foldl (fun g2 p => g2.add_edge p.1 p.2 w) g).weight a b =
      if ∃ p ∈ P, (g.hasVertex p.1 = true ∧ g.hasVertex p.2 = true) ∧
          ((p.1 = a ∧ p.2 = b) ∨ (p.1 = b ∧ p.2 = a))
      then some w else g.weight a b := by
  induction P generalizing g with
  | nil => simp
  | cons e P ih =>
    rw [List.foldl_cons, ih (g.add_edge e.1 e.2 w)]
    simp only [add_edge_hasVertex]
    by_cases hP : ∃ p ∈ P, (g.hasVertex p.1 = true ∧ g.hasVertex p.2 = true) ∧
        ((p.1 = a ∧ p.2 = b) ∨ (p.1 = b ∧ p.2 = a))
    · rw [if_pos hP, if_pos]
      obtain ⟨p, hp, hc⟩ := hP
      exact ⟨p, List.mem_cons_of_mem e hp, hc⟩
    · rw [if_neg hP, weight_add_edge g e.1 e.2 w hab]
      by_cases he : g.hasVertex e.1 = true ∧ g.hasVertex e.2 = true ∧
          ((e.1 = a ∧ e.2 = b) ∨ (e.1 = b ∧ e.2 = a))
      · rw [if_pos he, if_pos]
        exact ⟨e, List.mem_cons_self e P, ⟨he.1, he.2.1⟩, he.2.2⟩
      · rw [if_neg he, if_neg]
        rintro ⟨p, hp, hreg, hc⟩
        rcases List.mem_cons.mp hp with rfl | hp
        · exact he ⟨hreg.1, hreg.2, hc⟩
        · exact hP ⟨p, hp, hreg, hc⟩

theorem mem_pairsOf {l : List Nat} {p : Nat × Nat} (h : p ∈ pairsOf l) :
    p.1 ∈ l ∧ p.2 ∈ l := by
  induction l with
  | nil => simp [pairsOf] at h
  | cons x xs ih =>
    simp only [pairsOf, List.mem_append, List.mem_map] at h
    rcases h with ⟨y, hy, rfl⟩ | h
    · exact ⟨List.mem_cons_self x xs, List.mem_cons_of_mem x hy⟩
    · exact ⟨List.mem_cons_of_mem x (ih h).1, List.mem_cons_of_mem x (ih h).2⟩

theorem exists_pairsOf_iff {l : List Nat} {a b : Nat} (hab : a ≠ b) :
    (∃ p ∈ pairsOf l, (p.1 = a ∧ p.2 = b) ∨ (p.1 = b ∧ p.2 = a)) ↔ a ∈ l ∧ b ∈ l := by
  induction l with
  | nil => simp [pairsOf]
  | cons x xs ih =>
    constructor
    · rintro ⟨p, hp, hc⟩
      have hm := mem_pairsOf (l := x :: xs) hp
      rcases hc with ⟨h1, h2⟩ | ⟨h1, h2⟩
      · exact ⟨h1 ▸ hm.1, h2 ▸ hm.2⟩
      · exact ⟨h2 ▸ hm.2, h1 ▸ hm.1⟩
    · rintro ⟨ha, hb⟩
      rcases List.mem_cons.mp ha with rfl | ha'
      · rcases List.mem_cons.mp hb with rfl | hb'
        · exact absurd rfl hab
        · refine ⟨(a, b), ?_, Or.inl ⟨rfl, rfl⟩⟩
          rw [pairsOf]
          exact List.mem_append.mpr (Or.inl (List.mem_map.mpr ⟨b, hb', rfl⟩))
      · rcases List.mem_cons.mp hb with rfl | hb'
        · refine ⟨(b, a), ?_, Or.inr ⟨rfl, rfl⟩⟩
          rw [pairsOf]
          exact List.mem_append.mpr (Or.inl (List.mem_map.mpr ⟨a, ha', rfl⟩))
        · obtain ⟨p, hp, hc⟩ := ih.mpr ⟨ha', hb'⟩
          refine ⟨p, ?_, hc⟩
          rw [pairsOf]
          exact List.mem_append.mpr (Or.inr hp)

theorem exists_pairsOf_reg_iff {g : Graph} {l : List Nat} {a b : Nat} (hab : a ≠ b) :
    (∃ p ∈ pairsOf l, (g.hasVertex p.1 = true ∧ g.hasVertex p.2 = true) ∧
        ((p.1 = a ∧ p.2 = b) ∨ (p.1 = b ∧ p.2 = a))) ↔
      (a ∈ l ∧ b ∈ l) ∧ g.hasVertex a = true ∧ g.hasVertex b = true := by
  constructor
  · rintro ⟨p, hp, hreg, hc⟩
    refine ⟨(exists_pairsOf_iff hab).mp ⟨p, hp, hc⟩, ?_⟩
    rcases hc with ⟨h1, h2⟩ | ⟨h1, h2⟩
    · exact ⟨h1 ▸ hreg.1, h2 ▸ hreg.2⟩
    · exact ⟨h2 ▸ hreg.2, h1 ▸ hreg.1⟩
  · rintro ⟨hmem, hra, hrb⟩
    obtain ⟨p, hp, hc⟩ := (exists_pairsOf_iff hab).mpr hmem
    refine ⟨p, hp, ?_, hc⟩
    rcases hc with ⟨h1, h2⟩ | ⟨h1, h2⟩
    · exact ⟨h1.symm ▸ hra, h2.symm ▸ hrb⟩
    · exact ⟨h1.symm ▸ hrb, h2.symm ▸ hra⟩

theorem weight_foldl_groups (g : Graph) (groups : List (String × List Nat)) (w : Nat)
    {a b : Nat} (hab : a ≠ b) :
    (groups.foldl
        (fun g1 grp => (pairsOf grp.2).foldl (fun g2 p => g2.add_edge p.1 p.2 w) g1)
        g).weight a b =
      if ∃ grp ∈ groups, (a ∈ grp.2 ∧ b ∈ grp.2) ∧
          g.hasVertex a = true ∧ g.hasVertex b = true
      then some w else g.weight a b := by
  induction groups generalizing g with
  | nil => simp
  | cons grp groups ih =>
    rw [List.foldl_cons, ih]
    have hkeys : ∀ v, ((pairsOf grp.2).foldl
        (fun g2 p => g2.add_edge p.1 p.2 w) g).hasVertex v = g.hasVertex v := fun v =>
      hasVertex_foldl _ _ (fun g' (p : Nat × Nat) => add_edge_keys g' p.1 p.2 w) g v
    simp only [hkeys]
    rw [weight_foldl_pairs g _ w hab]
    by_cases hP : ∃ x ∈ groups, (a ∈ x.2 ∧ b ∈ x.2) ∧
        g.hasVertex a = true ∧ g.hasVertex b = true
    · rw [if_pos hP, if_pos]
      obtain ⟨x, hx, hc⟩ := hP
      exact ⟨x, List.mem_cons_of_mem grp hx, hc⟩
    · rw [if_neg hP]
      by_cases he : (a ∈ grp.2 ∧ b ∈ grp.2) ∧ g.hasVertex a = true ∧ g.hasVertex b = true
      · rw [if_pos ((exists_pairsOf_reg_iff hab).mpr he), if_pos]
        exact ⟨grp, List.mem_cons_self grp groups, he⟩
      · rw [if_neg (fun hc => he ((exists_pairsOf_reg_iff hab).mp hc)), if_neg]
        rintro ⟨x, hx, hc⟩
        rcases List.mem_cons.mp hx with rfl | hx
        · exact he hc
        · exact hP ⟨x, hx, hc⟩

theorem weight_addGroupEdges (g : Graph) (groups : List (String × List Nat)) (w : Nat)
    {a b : Nat} (hab : a ≠ b) :
    (addGroupEdges g groups w).weight a b =
      if ∃ grp ∈ groups, (a ∈ grp.2 ∧ b ∈ grp.2) ∧
          g.hasVertex a = true ∧ g.hasVertex b = true
      then some w else g.weight a b := by
  rw [addGroupEdges]
  exact weight_foldl_groups g groups w hab

theorem keysA_addGroupEdges (g : Graph) (groups : List (String × List Nat)) (w : Nat) :
    keysA (addGroupEdges g groups w).vertices = keysA g.vertices := by
  rw [addGroupEdges]
  exact keysA_vertices_foldl _ _
    (fun g' (grp : String × List Nat) =>
      keysA_vertices_foldl _ _ (fun g2 (p : Nat × Nat) => add_edge_keys g2 p.1 p.2 w) g') g

theorem hasVertex_addGroupEdges (g : Graph) (groups : List (String × List Nat)) (w : Nat)
    (v : Nat) : (addGroupEdges g groups w).hasVertex v = g.hasVertex v :=
  hasKey_eq_of_keysA_eq (keysA_addGroupEdges g groups w) v

/-! ### Related-pass lemmas -/

theorem weight_foldl_related (g : Graph) (data : List (Nat × RowData)) (x : Nat)
    (L : List Nat) {a b : Nat} (hab : a ≠ b) :
    (L.foldl (fun g2 r => if hasKey data r then g2.add_edge x r 1 else g2) g).weight a b =
      if ∃ r ∈ L, hasKey data r = true ∧
          (g.hasVertex x = true ∧ g.hasVertex r = true) ∧
          ((x = a ∧ r = b) ∨ (x = b ∧ r = a))
      then some 1 else g.weight a b := by
  induction L generalizing g with
  | nil => simp
  | cons r L ih =>
    rw [List.foldl_cons]
    by_cases hk : hasKey data r = true
    · rw [if_pos hk, ih]
      simp only [add_edge_hasVertex]
      rw [weight_add_edge g x r 1 hab]
      by_cases hP : ∃ r' ∈ L, hasKey data r' = true ∧
          (g.hasVertex x = true ∧ g.hasVertex r' = true) ∧
          ((x = a ∧ r' = b) ∨ (x = b ∧ r' = a))
      · rw [if_pos hP, if_pos]
        obtain ⟨r', hr', hc⟩ := hP
        exact ⟨r', List.mem_cons_of_mem r hr', hc⟩
      · rw [if_neg hP]
        by_cases he : g.hasVertex x = true ∧ g.hasVertex r = true ∧
            ((x = a ∧ r = b) ∨ (x = b ∧ r = a))
        · rw [if_pos he, if_pos]
          exact ⟨r, List.mem_cons_self r L, hk, ⟨he.1, he.2.1⟩, he.2.2⟩
        · rw [if_neg he, if_neg]
          rintro ⟨r', hr', hk', hreg', hc'⟩
          rcases List.mem_cons.mp hr' with rfl | hr'
          · exact he ⟨hreg'.1, hreg'.2, hc'⟩
          · exact hP ⟨r', hr', hk', hreg', hc'⟩
    · rw [if_neg hk, ih]
      by_cases hP : ∃ r' ∈ L, hasKey data r' = true ∧
          (g.hasVertex x = true ∧ g.hasVertex r' = true) ∧
          ((x = a ∧ r' = b) ∨ (x = b ∧ r' = a))
      · rw [if_pos hP, if_pos]
        obtain ⟨r', hr', hc⟩ := hP
        exact ⟨r', List.mem_cons_of_mem r hr', hc⟩
      · rw [if_neg hP, if_neg]
        rintro ⟨r', hr', hk', hreg', hc'⟩
        rcases List.mem_cons.mp hr' with rfl | hr'
        · exact hk hk'
        · exact hP ⟨r', hr', hk', hreg', hc'⟩

theorem keysA_foldl_related (g : Graph) (data : List (Nat × RowData)) (x : Nat)
    (L : List Nat) :
    keysA ((L.foldl (fun g2 r => if hasKey data r then g2.add_edge x r 1 else g2) g).vertices) =
      keysA g.vertices := by
  refine keysA_vertices_foldl L _ (fun g' r => ?_) g
  by_cases hk : hasKey data r
  · rw [if_pos hk]
    exact add_edge_keys g' x r 1
  · rw [if_neg hk]

theorem weight_foldl_relatedEntries (g : Graph) (data ds : List (Nat × RowData)) {a b : Nat}
    (hab : a ≠ b) :
    (ds.foldl
        (fun g1 e => (rowRelated e.2).foldl
          (fun g2 r => if hasKey data r then g2.add_edge e.1 r 1 else g2) g1)
        g).weight a b =
      if ∃ e ∈ ds, ∃ r ∈ rowRelated e.2, hasKey data r = true ∧
          (g.hasVertex e.1 = true ∧ g.hasVertex r = true) ∧
          ((e.1 = a ∧ r = b) ∨ (e.1 = b ∧ r = a))
      then some 1 else g.weight a b := by
  induction ds generalizing g with
  | nil => simp
  | cons e ds ih =>
    rw [List.foldl_cons, ih]
    have hkeys : ∀ v, ((rowRelated e.2).foldl
        (fun g2 r => if hasKey data r then g2.add_edge e.1 r 1 else g2) g).hasVertex v =
        g.hasVertex v := fun v =>
      hasKey_eq_of_keysA_eq (keysA_foldl_related g data e.1 (rowRelated e.2)) v
    simp only [hkeys]
    rw [weight_foldl_related g data e.1 (rowRelated e.2) hab]
    by_cases hP : ∃ e' ∈ ds, ∃ r ∈ rowRelated e'.2, hasKey data r = true ∧
        (g.hasVertex e'.1 = true ∧ g.hasVertex r = true) ∧
        ((e'.1 = a ∧ r = b) ∨ (e'.1 = b ∧ r = a))
    · rw [if_pos hP, if_pos]
      obtain ⟨e', he', hc⟩ := hP
      exact ⟨e', List.mem_cons_of_mem e he', hc⟩
    · rw [if_neg hP]
      by_cases he : ∃ r ∈ rowRelated e.2, hasKey data r = true ∧
          (g.hasVertex e.1 = true ∧ g.hasVertex r = true) ∧
          ((e.1 = a ∧ r = b) ∨ (e.1 = b ∧ r = a))
      · rw [if_pos he, if_pos]
        exact ⟨e, List.mem_cons_self e ds, he⟩
      · rw [if_neg he, if_neg]
        rintro ⟨e', he', hc⟩
        rcases List.mem_cons.mp he' with rfl | he'
        · exact he hc
        · exact hP ⟨e', he', hc⟩

theorem weight_addRelatedEdges (g : Graph) (data : List (Nat × RowData)) {a b : Nat}
    (hab : a ≠ b) :
    (addRelatedEdges g data).weight a b =
      if ∃ e ∈ data, ∃ r ∈ rowRelated e.2, hasKey data r = true ∧
          (g.hasVertex e.1 = true ∧ g.hasVertex r = true) ∧
          ((e.1 = a ∧ r = b) ∨ (e.1 = b ∧ r = a))
      then some 1 else g.weight a b := by
  rw [addRelatedEdges]
  exact weight_foldl_relatedEntries g data data hab

/-! ### Invariants of the row-reading pass -/

theorem mem_setA {κ β : Type} [DecidableEq κ] {l : List (κ × β)} {k : κ} {v : β}
    {p : κ × β} (h : p ∈ setA l k v) : p ∈ l ∨ p = (k, v) := by
  rw [setA] at h
  split at h
  · obtain ⟨q, hq, hmap⟩ := List.mem_map.mp h
    by_cases hqk : q.1 = k
    · rw [if_pos hqk] at hmap
      exact Or.inr hmap.symm
    · rw [if_neg hqk] at hmap
      exact Or.inl (hmap ▸ hq)
  · rcases List.mem_append.mp h with h | h
    · exact Or.inl h
    · exact Or.inr (List.mem_singleton.mp h)

theorem hasKey_setA_cases {κ β : Type} [DecidableEq κ] {l : List (κ × β)} {k k' : κ} {v : β}
    (h : hasKey (setA l k v) k' = true) : hasKey l k' = true ∨ k' = k := by
  rw [hasKey_iff, keysA_setA] at h
  split at h
  · exact Or.inl (hasKey_iff.mpr h)
  · rcases List.mem_append.mp h with h | h
    · exact Or.inl (hasKey_iff.mpr h)
    · exact Or.inr (List.mem_singleton.mp h)

theorem add_vertex_hasVertex_mono {g : Graph} {v : Nat} (h : g.hasVertex v = true)
    (i : Nat) (pop : Option Int) : (g.add_vertex i pop).hasVertex v = true := by
  rw [Graph.add_vertex]
  split
  · exact h
  · rw [Graph.hasVertex, hasKey_iff] at h ⊢
    simp only [keysA, List.map_append]
    exact List.mem_append.mpr (Or.inl h)

theorem add_vertex_hasVertex_self (g : Graph) (i : Nat) (pop : Option Int) :
    (g.add_vertex i pop).hasVertex i = true := by
  rw [Graph.add_vertex]
  split
  · assumption
  · rw [Graph.hasVertex, hasKey_iff]
    simp [keysA]

theorem mem_addToGroup {groups : List (String × List Nat)} {k : String} {x : Nat}
    {grp : String × List Nat} {m : Nat} (hg : grp ∈ addToGroup groups k x)
    (hm : m ∈ grp.2) : (∃ grp' ∈ groups, m ∈ grp'.2) ∨ m = x := by
  rw [addToGroup] at hg
  split at hg
  · rename_i members hlook
    split at hg
    · exact Or.inl ⟨grp, hg, hm⟩
    · rcases mem_setA hg with hg | hg
      · exact Or.inl ⟨grp, hg, hm⟩
      · rw [hg] at hm
        rcases List.mem_append.mp hm with hm | hm
        · exact Or.inl ⟨(k, members), lookupA_mem hlook, hm⟩
        · exact Or.inr (List.mem_singleton.mp hm)
  · rcases List.mem_append.mp hg with hg | hg
    · exact Or.inl ⟨grp, hg, hm⟩
    · rw [List.mem_singleton.mp hg] at hm
      exact Or.inr (List.mem_singleton.mp hm)

theorem mem_foldl_addToGroup {ks : List String} {groups : List (String × List Nat)} {x : Nat}
    {grp : String × List Nat} {m : Nat}
    (hg : grp ∈ ks.foldl (fun gs k => addToGroup gs k x) groups) (hm : m ∈ grp.2) :
    (∃ grp' ∈ groups, m ∈ grp'.2) ∨ m = x := by
  induction ks generalizing groups with
  | nil => exact Or.inl ⟨grp, hg, hm⟩
  | cons k ks ih =>
    rw [List.foldl_cons] at hg
    rcases ih hg with ⟨grp', hg', hm'⟩ | hx
    · exact (mem_addToGroup hg' hm').imp id id
    · exact Or.inr hx

theorem foldl_processRow_registered (rows : List Record) (st : BuildState)
    (h1 : ∀ grp ∈ st.genre_to_anime, ∀ m ∈ grp.2, st.graph.hasVertex m = true)
    (h2 : ∀ grp ∈ st.studio_to_anime, ∀ m ∈ grp.2, st.graph.hasVertex m = true)
    (h3 : ∀ k : Nat, hasKey st.data k = true → st.graph.hasVertex k = true) :
    (∀ grp ∈ (rows.foldl processRow st).genre_to_anime, ∀ m ∈ grp.2,
        (rows.foldl processRow st).graph.hasVertex m = true) ∧
    (∀ grp ∈ (rows.foldl processRow st).studio_to_anime, ∀ m ∈ grp.2,
        (rows.foldl processRow st).graph.hasVertex m = true) ∧
    (∀ k : Nat, hasKey (rows.foldl processRow st).data k = true →
        (rows.foldl processRow st).graph.hasVertex k = true) := by
  induction rows generalizing st with
  | nil => exact ⟨h1, h2, h3⟩
  | cons r rows ih =>
    rw [List.foldl_cons]
    refine ih (processRow st r) ?_ ?_ ?_
    · intro grp hg m hm
      simp only [processRow] at hg ⊢
      rcases mem_foldl_addToGroup hg hm with ⟨grp', hg', hm'⟩ | rfl
      · exact add_vertex_hasVertex_mono (h1 grp' hg' m hm') _ _
      · exact add_vertex_hasVertex_self _ _ _
    · intro grp hg m hm
      simp only [processRow] at hg ⊢
      by_cases hs : r.studio ≠ ""
      · rw [if_pos hs] at hg
        rcases mem_addToGroup hg hm with ⟨grp', hg', hm'⟩ | rfl
        · exact add_vertex_hasVertex_mono (h2 grp' hg' m hm') _ _
        · exact add_vertex_hasVertex_self _ _ _
      · rw [if_neg hs] at hg
        exact add_vertex_hasVertex_mono (h2 grp hg m hm) _ _
    · intro k hk
      simp only [processRow] at hk ⊢
      rcases hasKey_setA_cases hk with hk | rfl
      · exact add_vertex_hasVertex_mono (h3 k hk) _ _
      · exact add_vertex_hasVertex_self _ _ _

theorem buildState_registered (rows : List Record) :
    (∀ grp ∈ (buildState rows).genre_to_anime, ∀ m ∈ grp.2,
        (buildState rows).graph.hasVertex m = true) ∧
    (∀ grp ∈ (buildState rows).studio_to_anime, ∀ m ∈ grp.2,
        (buildState rows).graph.hasVertex m = true) ∧
    (∀ k : Nat, hasKey (buildState rows).data k = true →
        (buildState rows).graph.hasVertex k = true) := by
  rw [buildState]
  exact foldl_processRow_registered rows ⟨Graph.empty, [], [], [], []⟩
    (by intro grp hg; simp at hg) (by intro grp hg; simp at hg)
    (by intro k hk; simp [hasKey, lookupA] at hk)

theorem foldl_processRow_nbrs (rows : List Record) (st : BuildState)
    (h : ∀ p ∈ st.graph.vertices, p.2 = []) :
    ∀ p ∈ (rows.foldl processRow st).graph.vertices, p.2 = [] := by
  induction rows generalizing st with
  | nil => exact h
  | cons r rows ih =>
    rw [List.foldl_cons]
    refine ih (processRow st r) ?_
    intro p hp
    simp only [processRow] at hp
    rw [Graph.add_vertex] at hp
    split at hp
    · exact h p hp
    · rcases List.mem_append.mp hp with hp | hp
      · exact h p hp
      · rw [List.mem_singleton.mp hp]

theorem buildState_weight_none (rows : List Record) (a b : Nat) :
    (buildState rows).graph.weight a b = none := by
  rw [Graph.weight, Graph.nbrs]
  cases hv : lookupA (buildState rows).graph.vertices a with
  | none => rfl
  | some nb =>
    have hmem := lookupA_mem hv
    have : nb = [] := by
      have h := foldl_processRow_nbrs rows ⟨Graph.empty, [], [], [], []⟩
        (by intro p hp; simp [Graph.empty] at hp)
      rw [buildState] at hmem
      exact h (a, nb) hmem
    rw [this]
    rfl

theorem build_graph_weight (rows : List Record) {a b : Nat} (hab : a ≠ b) :
    (build_anime_graph rows).1.weight a b =
      if relatedPair rows a b then some 1
      else if sharesStudio rows a b then some 3
      else if sharesGenre rows a b then some 2
      else none := by
  obtain ⟨hreg1, hreg2, hreg3⟩ := buildState_registered rows
  show (addRelatedEdges
      (addGroupEdges
        (addGroupEdges (buildState rows).graph (buildState rows).genre_to_anime 2)
        (buildState rows).studio_to_anime 3)
      (buildState rows).data).weight a b = _
  rw [weight_addRelatedEdges _ _ hab]
  rw [weight_addGroupEdges _ _ _ hab]
  rw [weight_addGroupEdges _ _ _ hab]
  rw [buildState_weight_none]
  simp only [hasVertex_addGroupEdges]
  have hrelIff : (∃ e ∈ (buildState rows).data, ∃ r ∈ rowRelated e.2,
      hasKey (buildState rows).data r = true ∧
      ((buildState rows).graph.hasVertex e.1 = true ∧
        (buildState rows).graph.hasVertex r = true) ∧
      ((e.1 = a ∧ r = b) ∨ (e.1 = b ∧ r = a))) ↔ relatedPair rows a b := by
    unfold relatedPair
    constructor
    · rintro ⟨e, he, r, hr, hk, -, hc⟩
      exact ⟨e, he, r, hr, hk, hc⟩
    · rintro ⟨e, he, r, hr, hk, hc⟩
      refine ⟨e, he, r, hr, hk, ⟨?_, hreg3 r hk⟩, hc⟩
      exact hreg3 e.1 (hasKey_iff.mpr (List.mem_map.mpr ⟨e, he, rfl⟩))
  have hstuIff : (∃ grp ∈ (buildState rows).studio_to_anime, (a ∈ grp.2 ∧ b ∈ grp.2) ∧
      (buildState rows).graph.hasVertex a = true ∧
      (buildState rows).graph.hasVertex b = true) ↔ sharesStudio rows a b := by
    unfold sharesStudio
    constructor
    · rintro ⟨grp, hg, hmem, -⟩
      exact ⟨grp, hg, hmem⟩
    · rintro ⟨grp, hg, ha, hb⟩
      exact ⟨grp, hg, ⟨ha, hb⟩, hreg2 grp hg a ha, hreg2 grp hg b hb⟩
  have hgenIff : (∃ grp ∈ (buildState rows).genre_to_anime, (a ∈ grp.2 ∧ b ∈ grp.2) ∧
      (buildState rows).graph.hasVertex a = true ∧
      (buildState rows).graph.hasVertex b = true) ↔ sharesGenre rows a b := by
    unfold sharesGenre
    constructor
    · rintro ⟨grp, hg, hmem, -⟩
      exact ⟨grp, hg, hmem⟩
    · rintro ⟨grp, hg, ha, hb⟩
      exact ⟨grp, hg, ⟨ha, hb⟩, hreg1 grp hg a ha, hreg1 grp hg b hb⟩
  by_cases h1 : relatedPair rows a b
  · rw [if_pos (hrelIff.mpr h1), if_pos h1]
  · rw [if_neg (fun hc => h1 (hrelIff.mp hc)), if_neg h1]
    by_cases h2 : sharesStudio rows a b
    · rw [if_pos (hstuIff.mpr h2), if_pos h2]
    · rw [if_neg (fun hc => h2 (hstuIff.mp hc)), if_neg h2]
      by_cases h3 : sharesGenre rows a b
      · rw [if_pos (hgenIff.mpr h3), if_pos h3]
      · rw [if_neg (fun hc => h3 (hgenIff.mp hc)), if_neg h3]

/-! ### Claim C4: edge-category precedence -/

/-- Claim C4: for every record sequence and every pair of distinct items
connected by at least one attribute category, the final stored weight is
that of the last pass that touched the pair in the fixed genre → studio →
related order: 1 when the pair is explicitly related, otherwise 3 when it
shares a studio, otherwise 2 (shared genre). -/
theorem edge_category_precedence (rows : List Record) (a b : Nat) (hab : a ≠ b)
    (hconn : relatedPair rows a b ∨ sharesStudio rows a b ∨ sharesGenre rows a b) :
    (build_anime_graph rows).1.weight a b =
      some (if relatedPair rows a b then 1 else if sharesStudio rows a b then 3 else 2) := by
  rw [build_graph_weight rows hab]
  by_cases h1 : relatedPair rows a b
  · rw [if_pos h1, if_pos h1]
  · rw [if_neg h1, if_neg h1]
    by_cases h2 : sharesStudio rows a b
    · rw [if_pos h2, if_pos h2]
    · rw [if_neg h2, if_neg h2, if_pos]
      rcases hconn with h | h | h
      · exact absurd h h1
      · exact absurd h h2
      · exact h

/-- Witness for C4: on `rowsPrecedence` items 1 and 2 share a genre and
are related, and the stored weight is 1. -/
theorem edge_category_precedence_witness :
    (1 : Nat) ≠ 2 ∧ relatedPair rowsPrecedence 1 2 ∧ sharesGenre rowsPrecedence 1 2 ∧
      (build_anime_graph rowsPrecedence).1.weight 1 2 =
        some (if relatedPair rowsPrecedence 1 2 then 1
          else if sharesStudio rowsPrecedence 1 2 then 3 else 2) :=
  ⟨by decide, by decide, by decide,
    edge_category_precedence rowsPrecedence 1 2 (by decide) (Or.inl (by decide))⟩

/-! ### Title registration lemmas (claim C6) -/

theorem lookupA_title_fold (ts : List String) (m0 : List (String × Nat)) (i : Nat)
    (k : String) :
    lookupA (ts.foldl (fun m t => setA m (normalizeTitle t) i) m0) k =
      if ∃ t ∈ ts, normalizeTitle t = k then some i else lookupA m0 k := by
  induction ts generalizing m0 with
  | nil => simp
  | cons t ts ih =>
    rw [List.foldl_cons, ih]
    by_cases hP : ∃ t' ∈ ts, normalizeTitle t' = k
    · rw [if_pos hP, if_pos]
      obtain ⟨t', ht', hk⟩ := hP
      exact ⟨t', List.mem_cons_of_mem t ht', hk⟩
    · rw [if_neg hP]
      by_cases ht : normalizeTitle t = k
      · rw [← ht, lookupA_setA_self, if_pos]
        exact ⟨t, List.mem_cons_self t ts, rfl⟩
      · rw [lookupA_setA_ne _ _ (fun h => ht h.symm), if_neg]
        rintro ⟨t', ht', hk⟩
        rcases List.mem_cons.mp ht' with rfl | ht'
        · exact ht hk
        · exact hP ⟨t', ht', hk⟩

theorem lookup_title_foldl (rows : List Record) (st : BuildState) (k : String) (i : Nat)
    (hall : ∀ r ∈ rows, ∀ t ∈ rowTitles r, normalizeTitle t = k → r.anime_id = i)
    (hex : (∃ r ∈ rows, ∃ t ∈ rowTitles r, normalizeTitle t = k) ∨
      lookupA st.title_to_id k = some i) :
    lookupA ((rows.foldl processRow st).title_to_id) k = some i := by
  induction rows generalizing st with
  | nil =>
    rcases hex with ⟨r, hr, -⟩ | hex
    · simp at hr
    · exact hex
  | cons r rows ih =>
    rw [List.foldl_cons]
    have hstep : lookupA ((processRow st r).title_to_id) k =
        if ∃ t ∈ rowTitles r, normalizeTitle t = k then some r.anime_id
        else lookupA st.title_to_id k := by
      simp only [processRow]
      exact lookupA_title_fold (rowTitles r) st.title_to_id r.anime_id k
    refine ih (processRow st r) (fun r' hr' => hall r' (List.mem_cons_of_mem r hr')) ?_
    by_cases hrk : ∃ t ∈ rowTitles r, normalizeTitle t = k
    · right
      rw [hstep, if_pos hrk]
      obtain ⟨t, ht, hk⟩ := hrk
      rw [hall r (List.mem_cons_self r rows) t ht hk]
    · rcases hex with ⟨r', hr', hex'⟩ | hex
      · rcases List.mem_cons.mp hr' with rfl | hr'
        · exact absurd hex' hrk
        · exact Or.inl ⟨r', hr', hex'⟩
      · right
        rw [hstep, if_neg hrk]
        exact hex

/-! ### Claim C6: alias round-trip (amended with a no-collision proviso) -/

/-- Claim C6 (amended): for a record `r` of the input and any alias string
`s` it registers, if every record registering a string whose normalized
form equals that of `s` or of `r`'s canonical title is `r`'s own item
(no collision — otherwise the last writer wins), then resolving `s`
returns `r`'s identifier, identical to resolving the canonical title. -/
theorem alias_round_trip (rows : List Record) (r : Record) (s : String)
    (hr : r ∈ rows) (hs : s ∈ rowTitles r)
    (hcol : ∀ r' ∈ rows, ∀ t ∈ rowTitles r',
      (normalizeTitle t = normalizeTitle s ∨ normalizeTitle t = normalizeTitle r.title) →
        r'.anime_id = r.anime_id) :
    resolveTitle (build_anime_graph rows).2.1 s = some r.anime_id ∧
      resolveTitle (build_anime_graph rows).2.1 r.title = some r.anime_id := by
  have hbuild : (build_anime_graph rows).2.1 = (buildState rows).title_to_id := rfl
  rw [hbuild]
  constructor
  · rw [resolveTitle, buildState]
    refine lookup_title_foldl rows _ _ r.anime_id ?_ ?_
    · intro r' hr' t ht hk
      exact hcol r' hr' t ht (Or.inl hk)
    · exact Or.inl ⟨r, hr, s, hs, rfl⟩
  · rw [resolveTitle, buildState]
    refine lookup_title_foldl rows _ _ r.anime_id ?_ ?_
    · intro r' hr' t ht hk
      exact hcol r' hr' t ht (Or.inr hk)
    · exact Or.inl ⟨r, hr, r.title, by rw [rowTitles]; exact List.mem_cons_self _ _, rfl⟩

/-- Witness for C6 (amended): on `rowsAliasOk`, resolving the synonym
"Alpha" of item 1 and resolving its canonical title "A" both yield 1. -/
theorem alias_round_trip_witness :
    (⟨1, "A", "", "", ["Alpha"], [], "", [], some 1⟩ : Record) ∈ rowsAliasOk ∧
      "Alpha" ∈ rowTitles (⟨1, "A", "", "", ["Alpha"], [], "", [], some 1⟩ : Record) ∧
      resolveTitle (build_anime_graph rowsAliasOk).2.1 "Alpha" = some 1 ∧
      resolveTitle (build_anime_graph rowsAliasOk).2.1 "A" = some 1 :=
  ⟨by decide, by decide,
    (alias_round_trip rowsAliasOk ⟨1, "A", "", "", ["Alpha"], [], "", [], some 1⟩ "Alpha"
      (by decide) (by decide) (by decide)).1,
    (alias_round_trip rowsAliasOk ⟨1, "A", "", "", ["Alpha"], [], "", [], some 1⟩ "Alpha"
      (by decide) (by decide) (by decide)).2⟩

/-! ### Claim C1 (amended): closest on an edgeless source -/

theorem dijkstraLoop_nil (g : Graph) (f : Nat) (dist : List (Nat × Option Nat))
    (visited : List Nat) : dijkstraLoop g f [] dist visited = dist := by
  cases f <;> rfl

theorem dijkstraFrom_no_nbrs (g : Graph) (s : Nat) (hnb : g.nbrs s = []) :
    dijkstraFrom g s = initDist g s := by
  rw [dijkstraFrom]
  obtain ⟨f, hf⟩ : ∃ f, dijkstraFuel g = f + 1 :=
    ⟨(g.vertices.length + 1) * (totalAdj g + 1) + 1, rfl⟩
  rw [hf]
  show (match popMin [(0, s)] with
    | none => initDist g s
    | some ((d, u), rest) =>
      if List.contains [] u then dijkstraLoop g f rest (initDist g s) []
      else
        let visited' := [] ++ [u]
        let p := relax visited' d (g.nbrs u) (initDist g s) []
        dijkstraLoop g f (rest ++ p.2) p.1 visited') = initDist g s
  rw [show popMin [(0, s)] = some ((0, s), []) from rfl]
  simp only [List.contains, List.elem, hnb]
  rw [show relax ([] ++ [s]) 0 [] (initDist g s) [] = (initDist g s, []) from rfl]
  exact dijkstraLoop_nil g f (initDist g s) ([] ++ [s])

theorem closestCandidates_all_inf {dist : List (Nat × Option Nat)} {s : Nat}
    (h : ∀ p ∈ dist, p.1 ≠ s → p.2 = none) :
    closestCandidates dist s = (none, (keysA dist).filter (fun v => v ≠ s)) := by
  rw [closestCandidates]
  suffices H : ∀ acc : List Nat,
      dist.foldl
        (fun acc p =>
          if p.1 ≠ s && distLt p.2 acc.1 then (p.2, [p.1])
          else if p.1 ≠ s && distEq p.2 acc.1 then (acc.1, acc.2 ++ [p.1])
          else acc)
        ((none : Option Nat), acc) =
      (none, acc ++ (keysA dist).filter (fun v => v ≠ s)) by
    simpa using H []
  induction dist with
  | nil =>
    intro acc
    simp [keysA]
  | cons p t ih =>
    intro acc
    rw [List.foldl_cons]
    by_cases hp : p.1 = s
    · have hcond : (p.1 ≠ s && distLt p.2 (none : Option Nat)) = false := by
        simp [hp]
      have hcond2 : (p.1 ≠ s && distEq p.2 (none : Option Nat)) = false := by
        simp [hp]
      rw [hcond, hcond2]
      simp only [if_false, Bool.false_eq_true]
      rw [ih (fun q hq => h q (List.mem_cons_of_mem p hq)) acc]
      simp [keysA, hp]
    · have hval : p.2 = none := h p (List.mem_cons_self p t) hp
      have hcond : (p.1 ≠ s && distLt p.2 (none : Option Nat)) = false := by
        simp [hval, distLt]
      have hcond2 : (p.1 ≠ s && distEq p.2 (none : Option Nat)) = true := by
        simp [hval, distEq, hp]
      rw [hcond, hcond2]
      simp only [if_false, if_true, Bool.false_eq_true]
      rw [ih (fun q hq => h q (List.mem_cons_of_mem p hq)) (acc ++ [p.1])]
      simp [keysA, hp]

theorem keysA_map_fst_pair {β γ : Type} (l : List (Nat × β)) (f : β → γ) :
    keysA (l.map (fun p => (p.1, f p.2))) = keysA l := by
  simp [keysA, List.map_map, Function.comp_def]

theorem keysA_initDist (g : Graph) (s : Nat) (hs : g.hasVertex s = true) :
    keysA (initDist g s) = keysA g.vertices := by
  rw [initDist, keysA_setA, if_pos]
  · exact keysA_map_fst_pair g.vertices (fun _ => (none : Option Nat))
  · rw [keysA_map_fst_pair g.vertices (fun _ => (none : Option Nat))]
    exact hasKey_iff.mp hs

theorem initDist_values {g : Graph} {s : Nat} :
    ∀ p ∈ initDist g s, p.1 ≠ s → p.2 = none := by
  intro p hp hps
  rcases mem_setA hp with hp | hp
  · obtain ⟨q, -, rfl⟩ := List.mem_map.mp hp
    rfl
  · rw [hp] at hps
    exact absurd rfl hps

/-- Claim C1 (amended): on any well-keyed graph state, calling
`find_closest_anime` on a registered source with an empty neighbour dict
returns `None` exactly when no other registered vertex passes the ±100
popularity window against the source; otherwise the candidate block's
`inf == inf` comparison has admitted every other vertex, and the most
popular one inside the window is returned even though it is unreachable. -/
theorem closest_no_edges_iff (g : Graph) (s : Nat)
    (hs : g.hasVertex s = true) (hnb : g.nbrs s = []) :
    g.find_closest_anime s = none ↔
      ∀ v ∈ keysA g.vertices, v ≠ s → popWithin (g.popGet v) (g.popGet s) = false := by
  rw [Graph.find_closest_anime, if_neg (by simp [hs])]
  simp only [dijkstraFrom_no_nbrs g s hnb, closestCandidates_all_inf initDist_values,
    keysA_initDist g s hs]
  cases hf : ((keysA g.vertices).filter (fun v => v ≠ s)).filter
      (fun a => popWithin (g.popGet a) (g.popGet s)) with
  | nil =>
    simp only []
    constructor
    · intro _ v hv hvs
      have := List.filter_eq_nil_iff.mp hf v
      simp only [List.mem_filter] at this
      by_contra hcon
      rw [Bool.not_eq_false] at hcon
      exact this ⟨hv, by simpa using hvs⟩ (by simpa using hcon)
    · intro _
      trivial
  | cons x xs =>
    simp only []
    constructor
    · intro hcon
      exact absurd hcon (by simp)
    · intro hall
      have hx : x ∈ ((keysA g.vertices).filter (fun v => v ≠ s)).filter
          (fun a => popWithin (g.popGet a) (g.popGet s)) := by
        rw [hf]
        exact List.mem_cons_self x xs
      simp only [List.mem_filter] at hx
      have hxs : x ≠ s := by simpa using hx.1.2
      have := hall x hx.1.1 hxs
      rw [this] at hx
      exact absurd hx.2 (by simp)

/-- Witness for C1 (amended): on `gNoEdges` vertex 2 sits inside the
popularity window of the edgeless source 1, so the iff forces a non-None
result. -/
theorem closest_no_edges_iff_witness :
    gNoEdges.hasVertex 1 = true ∧ gNoEdges.nbrs 1 = [] ∧
      (gNoEdges.find_closest_anime 1 = none ↔
        ∀ v ∈ keysA gNoEdges.vertices, v ≠ 1 →
          popWithin (gNoEdges.popGet v) (gNoEdges.popGet 1) = false) :=
  ⟨by decide, by decide, closest_no_edges_iff gNoEdges 1 (by decide) (by decide)⟩

/-! ### Stable-sort lemmas -/

theorem insertSorted_perm {α : Type} (le : α → α → Bool) (x : α) (l : List α) :
    (insertSorted le x l).Perm (x :: l) := by
  induction l with
  | nil => exact List.Perm.refl _
  | cons y ys ih =>
    rw [insertSorted]
    split
    · exact (ih.cons y).trans (List.Perm.swap x y ys)
    · exact List.Perm.refl _

theorem sortedBy_perm {α : Type} (le : α → α → Bool) (l : List α) :
    (sortedBy le l).Perm l := by
  rw [sortedBy]
  suffices H : ∀ acc : List α, (l.foldl (fun acc x => insertSorted le x acc) acc).Perm (acc ++ l) by
    simpa using H []
  induction l with
  | nil => intro acc; simp
  | cons x xs ih =>
    intro acc
    rw [List.foldl_cons]
    refine (ih (insertSorted le x acc)).trans ?_
    refine (List.Perm.append_right xs (insertSorted_perm le x acc)).trans ?_
    exact (List.perm_middle).symm

theorem mem_sortedBy {α : Type} {le : α → α → Bool} {l : List α} {x : α} :
    x ∈ sortedBy le l ↔ x ∈ l :=
  (sortedBy_perm le l).mem_iff

/-! ### Claim C2 (amended): top-N applies no popularity filter -/

/-- Claim C2 (amended): every identifier returned by
`get_top_n_recommendations` is a registered non-source vertex whose
computed distance is finite; no popularity-window condition is imposed
(see the counterexample), so the source's rank — known, far, or Unknown —
never filters the list. -/
theorem topn_members (g : Graph) (s : Nat) (n : Nat) (x : Nat)
    (hx : x ∈ g.get_top_n_recommendations s n) :
    x ≠ s ∧ ∃ d : Nat, (x, some d) ∈ dijkstraFrom g s := by
  rw [Graph.get_top_n_recommendations] at hx
  split at hx
  · simp at hx
  · obtain ⟨p, hp, rfl⟩ := List.mem_map.mp hx
    have hps : p ∈ sortedBy (topKeyLe g)
        ((dijkstraFrom g s).filterMap
          (fun p => match p.2 with
            | some d => if p.1 ≠ s then some (p.1, d) else none
            | none => none)) := List.mem_of_mem_take hp
    rw [mem_sortedBy] at hps
    obtain ⟨q, hq, hfq⟩ := List.mem_filterMap.mp hps
    rcases hqv : q.2 with _ | d
    · simp only [hqv] at hfq
      exact absurd hfq (by simp)
    · simp only [hqv] at hfq
      by_cases hqs : q.1 = s
      · simp [hqs] at hfq
      · rw [if_pos hqs] at hfq
        have hp' : (q.1, d) = p := Option.some.inj hfq
        have hq1 : q.1 = p.1 := congrArg Prod.fst hp'
        refine ⟨fun h => hqs (hq1.trans h), p.2, ?_⟩
        have hd : d = p.2 := congrArg Prod.snd hp'
        have hqe : q = (p.1, some p.2) := by
          obtain ⟨q1, q2⟩ := q
          simp only at hqv hq1
          rw [hqv, hq1, hd]
        rwa [hqe] at hq

/-- Witness for C2 (amended): applied on `gFarPop`, whose top list is
`[2]` although 2's rank is 490 units away from the source's. -/
theorem topn_members_witness :
    2 ∈ gFarPop.get_top_n_recommendations 1 5 ∧
      ((2 : Nat) ≠ 1 ∧ ∃ d : Nat, ((2 : Nat), some d) ∈ dijkstraFrom gFarPop 1) :=
  ⟨by decide, topn_members gFarPop 1 5 2 (by decide)⟩

/-! ### Well-formedness of constructed graphs -/

theorem setNbr_entry {vs : List (Nat × List (Nat × Nat))} {u k : Nat} {w : Nat}
    {p : Nat × List (Nat × Nat)} (hp : p ∈ setNbr vs u k w) :
    ∃ q ∈ vs, p.1 = q.1 ∧ (p.2 = q.2 ∨ p.2 = setA q.2 k w) := by
  obtain ⟨q, hq, hmap⟩ := List.mem_map.mp hp
  by_cases hqu : q.1 = u
  · rw [if_pos hqu] at hmap
    exact ⟨q, hq, by rw [← hmap], Or.inr (by rw [← hmap])⟩
  · rw [if_neg hqu] at hmap
    exact ⟨q, hq, by rw [hmap], Or.inl (by rw [hmap])⟩

theorem nbrList_wf_setA {C : Nat → Prop} {nb : List (Nat × Nat)}
    (h1 : (keysA nb).Nodup) (h2 : ∀ q ∈ nb, C q.1) {k : Nat} (hk : C k) (w : Nat) :
    (keysA (setA nb k w)).Nodup ∧ ∀ q ∈ setA nb k w, C q.1 := by
  constructor
  · rw [keysA_setA]
    split
    · exact h1
    · rename_i hnk
      exact List.nodup_append.mpr ⟨h1, List.nodup_singleton k,
        by intro x hx hk'; rw [List.mem_singleton.mp hk'] at hx; exact hnk hx⟩
  · intro q hq
    rcases mem_setA hq with hq | rfl
    · exact h2 q hq
    · exact hk

theorem wellFormed_empty : WellFormed Graph.empty := by
  constructor
  · simp [Graph.empty, keysA]
  · intro p hp
    simp [Graph.empty] at hp

theorem wellFormed_add_vertex {g : Graph} (h : WellFormed g) (i : Nat) (pop : Option Int) :
    WellFormed (g.add_vertex i pop) := by
  rw [Graph.add_vertex]
  split
  · exact h
  · rename_i hno
    constructor
    · simp only [keysA, List.map_append, List.map_cons, List.map_nil]
      refine List.nodup_append.mpr ⟨h.1, List.nodup_singleton i, ?_⟩
      intro x hx hi
      rw [List.mem_singleton.mp hi] at hx
      exact hno (by rw [Graph.hasVertex, hasKey_iff]; exact hx)
    · intro p hp
      rcases List.mem_append.mp hp with hp | hp
      · refine ⟨(h.2 p hp).1, fun q hq => ?_⟩
        have hreg := (h.2 p hp).2 q hq
        rw [Graph.hasVertex, hasKey_iff] at hreg ⊢
        simp only [keysA, List.map_append]
        exact List.mem_append.mpr (Or.inl hreg)
      · rw [List.mem_singleton.mp hp]
        exact ⟨List.nodup_nil, by intro q hq; simp at hq⟩

theorem wellFormed_add_edge {g : Graph} (h : WellFormed g) (a b : Nat) (w : Nat) :
    WellFormed (g.add_edge a b w) := by
  have hkeys := add_edge_keys g a b w
  have hhv := add_edge_hasVertex g a b w
  rw [Graph.add_edge]
  rw [Graph.add_edge] at hkeys hhv
  by_cases hg : (g.hasVertex a && g.hasVertex b) = true
  case neg =>
    rw [if_neg hg]
    exact h
  rw [if_pos hg] at hkeys hhv ⊢
  simp only [Bool.and_eq_true] at hg
  constructor
  · rw [hkeys]
    exact h.1
  · intro p hp
    obtain ⟨q', hq', hpq', hval'⟩ := setNbr_entry hp
    obtain ⟨q, hq, hpq, hval⟩ := setNbr_entry hq'
    have hq1 := (h.2 q hq).1
    have hq2 : ∀ r ∈ q.2, g.hasVertex r.1 = true := (h.2 q hq).2
    have step1 : (keysA q'.2).Nodup ∧ ∀ r ∈ q'.2, g.hasVertex r.1 = true := by
      rcases hval with hval | hval
      · rw [hval]
        exact ⟨hq1, hq2⟩
      · rw [hval]
        exact nbrList_wf_setA (C := fun v => g.hasVertex v = true) hq1 hq2 hg.2 w
    have step2 : (keysA p.2).Nodup ∧ ∀ r ∈ p.2, g.hasVertex r.1 = true := by
      rcases hval' with hval' | hval'
      · rw [hval']
        exact step1
      · rw [hval']
        exact nbrList_wf_setA (C := fun v => g.hasVertex v = true) step1.1 step1.2 hg.1 w
    refine ⟨step2.1, fun r hr => ?_⟩
    have := step2.2 r hr
    rw [Graph.hasVertex, hasKey_iff] at this ⊢
    rw [keysA_setNbr, keysA_setNbr]
    exact this

theorem wellFormed_foldl {α : Type} (P : List α) (step : Graph → α → Graph)
    (hstep : ∀ g p, WellFormed g → WellFormed (step g p)) (g : Graph)
    (h : WellFormed g) : WellFormed (P.foldl step g) := by
  induction P generalizing g with
  | nil => exact h
  | cons e P ih => exact ih (step g e) (hstep g e h)

theorem wellFormed_buildState (rows : List Record) : WellFormed (buildState rows).graph := by
  rw [buildState]
  suffices H : ∀ st : BuildState, WellFormed st.graph →
      WellFormed ((rows.foldl processRow st).graph) from
    H ⟨Graph.empty, [], [], [], []⟩ wellFormed_empty
  induction rows with
  | nil => exact fun st h => h
  | cons r rows ih =>
    intro st h
    rw [List.foldl_cons]
    exact ih (processRow st r) (wellFormed_add_vertex h r.anime_id r.popularity)

/-- Every graph produced by `build_anime_graph` is structurally
well-formed: distinct vertex keys, distinct neighbour keys, and every
stored neighbour registered. -/
theorem build_wellFormed (rows : List Record) : WellFormed (build_anime_graph rows).1 := by
  show WellFormed (addRelatedEdges
    (addGroupEdges
      (addGroupEdges (buildState rows).graph (buildState rows).genre_to_anime 2)
      (buildState rows).studio_to_anime 3)
    (buildState rows).data)
  have h0 := wellFormed_buildState rows
  have h1 : WellFormed (addGroupEdges (buildState rows).graph
      (buildState rows).genre_to_anime 2) := by
    rw [addGroupEdges]
    refine wellFormed_foldl _ _ (fun g' grp hg' => ?_) _ h0
    exact wellFormed_foldl _ _ (fun g2 p h2 => wellFormed_add_edge h2 p.1 p.2 2) g' hg'
  have h2 : WellFormed (addGroupEdges (addGroupEdges (buildState rows).graph
      (buildState rows).genre_to_anime 2) (buildState rows).studio_to_anime 3) := by
    rw [addGroupEdges]
    refine wellFormed_foldl _ _ (fun g' grp hg' => ?_) _ h1
    exact wellFormed_foldl _ _ (fun g2 p hh => wellFormed_add_edge hh p.1 p.2 3) g' hg'
  rw [addRelatedEdges]
  refine wellFormed_foldl _ _ (fun g' e hg' => ?_) _ h2
  refine wellFormed_foldl _ _ (fun g2 r hh => ?_) g' hg'
  split
  · exact wellFormed_add_edge hh e.1 r 1
  · exact hh

theorem nbrs_targets_registered {g : Graph} (hwf : WellFormed g) (u : Nat) :
    ∀ q ∈ g.nbrs u, g.hasVertex q.1 = true := by
  intro q hq
  rw [Graph.nbrs] at hq
  cases hv : lookupA g.vertices u with
  | none =>
    rw [hv] at hq
    simp at hq
  | some nb =>
    rw [hv] at hq
    simp only [Option.getD_some] at hq
    exact (hwf.2 (u, nb) (lookupA_mem hv)).2 q hq

/-! ### Key invariance of the Dijkstra loop -/

theorem keysA_relax (visited : List Nat) (d : Nat) (nbrs : List (Nat × Nat))
    (dist : List (Nat × Option Nat)) (acc : List (Nat × Nat))
    (hn : ∀ q ∈ nbrs, q.1 ∈ keysA dist) :
    keysA (relax visited d nbrs dist acc).1 = keysA dist := by
  induction nbrs generalizing dist acc with
  | nil => rfl
  | cons q rest ih =>
    obtain ⟨t, w⟩ := q
    rw [relax]
    split
    · exact ih dist acc (fun q hq => hn q (List.mem_cons_of_mem _ hq))
    · split
      · have hk : keysA (setA dist t (some (d + w))) = keysA dist := by
          rw [keysA_setA, if_pos (hn (t, w) (List.mem_cons_self _ _))]
        rw [ih (setA dist t (some (d + w))) (acc ++ [(d + w, t)])
          (fun q hq => by rw [hk]; exact hn q (List.mem_cons_of_mem _ hq)), hk]
      · exact ih dist acc (fun q hq => hn q (List.mem_cons_of_mem _ hq))

theorem keysA_dijkstraLoop (g : Graph) (hwf : WellFormed g) (fuel : Nat)
    (pq : List (Nat × Nat)) (dist : List (Nat × Option Nat)) (visited : List Nat)
    (hd : keysA dist = keysA g.vertices) :
    keysA (dijkstraLoop g fuel pq dist visited) = keysA g.vertices := by
  induction fuel generalizing pq dist visited with
  | zero => exact hd
  | succ fuel ih =>
    rw [dijkstraLoop]
    split
    · exact hd
    · rename_i d u rest heq
      split
      · exact ih rest dist visited hd
      · have hrk : keysA (relax (visited ++ [u]) d (g.nbrs u) dist []).1 = keysA dist :=
          keysA_relax _ _ _ _ _ (fun q hq => by
            rw [hd]
            exact hasKey_iff.mp (nbrs_targets_registered hwf u q hq))
        exact ih _ _ _ (hrk.trans hd)

theorem keysA_dijkstraFrom (g : Graph) (s : Nat) (hwf : WellFormed g)
    (hs : g.hasVertex s = true) :
    keysA (dijkstraFrom g s) = keysA g.vertices := by
  rw [dijkstraFrom]
  exact keysA_dijkstraLoop g hwf _ _ _ _ (keysA_initDist g s hs)

/-! ### Sortedness and distinctness of the top-N list (claim C3) -/

theorem keysA_filterMap_subset {β γ : Type} {f : (Nat × β) → Option (Nat × γ)}
    {l : List (Nat × β)} (hf : ∀ p r, f p = some r → r.1 = p.1) :
    ∀ x ∈ keysA (l.filterMap f), x ∈ keysA l := by
  intro x hx
  obtain ⟨r, hr, rfl⟩ := List.mem_map.mp hx
  obtain ⟨q, hq, hfq⟩ := List.mem_filterMap.mp hr
  rw [hf q r hfq]
  exact List.mem_map.mpr ⟨q, hq, rfl⟩

theorem nodup_keysA_filterMap {β γ : Type} {f : (Nat × β) → Option (Nat × γ)}
    {l : List (Nat × β)} (hf : ∀ p r, f p = some r → r.1 = p.1)
    (h : (keysA l).Nodup) : (keysA (l.filterMap f)).Nodup := by
  induction l with
  | nil => simp [keysA]
  | cons p t ih =>
    simp only [keysA, List.map_cons, List.nodup_cons] at h
    cases hfp : f p with
    | none =>
      rw [List.filterMap_cons_none hfp]
      exact ih h.2
    | some r =>
      rw [List.filterMap_cons_some hfp]
      simp only [keysA, List.map_cons, List.nodup_cons]
      refine ⟨fun hmem => ?_, ih h.2⟩
      have := keysA_filterMap_subset hf r.1 hmem
      rw [hf p r hfp] at this
      exact h.1 this

theorem pairwise_insertSorted {α : Type} {le : α → α → Bool}
    (htrans : ∀ a b c, le a b = true → le b c = true → le a c = true)
    (htot : ∀ a b, le a b = true ∨ le b a = true)
    (x : α) {l : List α} (hl : l.Pairwise (fun a b => le a b = true)) :
    (insertSorted le x l).Pairwise (fun a b => le a b = true) := by
  induction l with
  | nil => simp [insertSorted]
  | cons y ys ih =>
    rw [insertSorted]
    obtain ⟨hy, hys⟩ := List.pairwise_cons.mp hl
    split
    · rename_i hle
      refine List.pairwise_cons.mpr ⟨fun z hz => ?_, ih hys⟩
      rcases List.mem_cons.mp ((insertSorted_perm le x ys).mem_iff.mp hz) with rfl | hz
      · exact hle
      · exact hy z hz
    · rename_i hle
      have hxy : le x y = true := (htot x y).resolve_right hle
      refine List.pairwise_cons.mpr ⟨fun z hz => ?_, hl⟩
      rcases List.mem_cons.mp hz with rfl | hz
      · exact hxy
      · exact htrans x y z hxy (hy z hz)

theorem pairwise_sortedBy {α : Type} {le : α → α → Bool}
    (htrans : ∀ a b c, le a b = true → le b c = true → le a c = true)
    (htot : ∀ a b, le a b = true ∨ le b a = true) (l : List α) :
    (sortedBy le l).Pairwise (fun a b => le a b = true) := by
  rw [sortedBy]
  suffices H : ∀ acc : List α, acc.Pairwise (fun a b => le a b = true) →
      (l.foldl (fun acc x => insertSorted le x acc) acc).Pairwise
        (fun a b => le a b = true) from H [] (by simp)
  induction l with
  | nil => exact fun acc h => h
  | cons x xs ih =>
    intro acc hacc
    rw [List.foldl_cons]
    exact ih (insertSorted le x acc) (pairwise_insertSorted htrans htot x hacc)

theorem popLe_total (p q : Option Int) : popLe p q = true ∨ popLe q p = true := by
  cases p <;> cases q <;> simp [popLe] <;> omega

theorem popLe_trans {p q r : Option Int} (h1 : popLe p q = true) (h2 : popLe q r = true) :
    popLe p r = true := by
  cases p <;> cases q <;> cases r <;> simp [popLe] at * <;> omega

theorem topKeyLe_total (g : Graph) (a b : Nat × Nat) :
    topKeyLe g a b = true ∨ topKeyLe g b a = true := by
  simp only [topKeyLe, Bool.or_eq_true, Bool.and_eq_true, decide_eq_true_eq]
  rcases Nat.lt_trichotomy a.2 b.2 with h | h | h
  · exact Or.inl (Or.inl h)
  · rcases popLe_total (g.popGet a.1) (g.popGet b.1) with hp | hp
    · exact Or.inl (Or.inr ⟨h, hp⟩)
    · exact Or.inr (Or.inr ⟨h.symm, hp⟩)
  · exact Or.inr (Or.inl h)

theorem topKeyLe_trans (g : Graph) (a b c : Nat × Nat) (h1 : topKeyLe g a b = true)
    (h2 : topKeyLe g b c = true) : topKeyLe g a c = true := by
  simp only [topKeyLe, Bool.or_eq_true, Bool.and_eq_true, decide_eq_true_eq] at h1 h2 ⊢
  rcases h1 with h1 | ⟨h1e, h1p⟩
  · rcases h2 with h2 | ⟨h2e, -⟩
    · exact Or.inl (h1.trans h2)
    · exact Or.inl (h2e ▸ h1)
  · rcases h2 with h2 | ⟨h2e, h2p⟩
    · exact Or.inl (h1e ▸ h2)
    · exact Or.inr ⟨h1e.trans h2e, popLe_trans h1p h2p⟩

theorem mem_candidates {dist : List (Nat × Option Nat)} {s : Nat} {p : Nat × Nat}
    (hp : p ∈ dist.filterMap
      (fun p => match p.2 with
        | some d => if p.1 ≠ s then some (p.1, d) else none
        | none => none)) :
    p.1 ≠ s ∧ (p.1, some p.2) ∈ dist := by
  obtain ⟨q, hq, hfq⟩ := List.mem_filterMap.mp hp
  rcases hqv : q.2 with _ | d
  · simp only [hqv] at hfq
    exact absurd hfq (by simp)
  · simp only [hqv] at hfq
    by_cases hqs : q.1 = s
    · simp [hqs] at hfq
    · rw [if_pos hqs] at hfq
      have hp' : (q.1, d) = p := Option.some.inj hfq
      have hq1 : q.1 = p.1 := congrArg Prod.fst hp'
      have hd : d = p.2 := congrArg Prod.snd hp'
      refine ⟨fun h => hqs (hq1.trans h), ?_⟩
      have hqe : q = (p.1, some p.2) := by
        obtain ⟨q1, q2⟩ := q
        simp only at hqv hq1
        rw [hqv, hq1, hd]
      rwa [hqe] at hq

/-- Claim C3 (amended): for every well-formed graph state, source and
`n`, the top-N list has at most `n` entries, no duplicates, excludes the
source, is empty at `n = 0`, and is sorted non-decreasingly by the code's
key — (computed shortest-path distance, the candidate's own popularity
rank); remaining ties keep the stable sort's input order, which is vertex
registration order. -/
theorem topn_props (g : Graph) (s : Nat) (n : Nat) (hwf : WellFormed g) :
    (g.get_top_n_recommendations s n).length ≤ n ∧
      (g.get_top_n_recommendations s n).Nodup ∧
      s ∉ g.get_top_n_recommendations s n ∧
      (n = 0 → g.get_top_n_recommendations s n = []) ∧
      (g.get_top_n_recommendations s n).Pairwise
        (fun a b => codeKeyLe g s a b = true) := by
  rw [Graph.get_top_n_recommendations]
  split
  · simp
  · rename_i hsreg
    rw [not_not] at hsreg
    simp only []
    set dist := dijkstraFrom g s with hdist
    set f : Nat × Option Nat → Option (Nat × Nat) := fun p => match p.2 with
      | some d => if p.1 ≠ s then some (p.1, d) else none
      | none => none with hfdef
    set cands := dist.filterMap f with hcands
    set sorted := sortedBy (topKeyLe g) cands with hsorted
    have hf : ∀ p r, f p = some r → r.1 = p.1 := by
      intro p r hfr
      rw [hfdef] at hfr
      rcases hpv : p.2 with _ | d
      · simp only [hpv] at hfr
        exact absurd hfr (by simp)
      · simp only [hpv] at hfr
        by_cases hps : p.1 = s
        · simp [hps] at hfr
        · rw [if_pos hps] at hfr
          exact (congrArg Prod.fst (Option.some.inj hfr)).symm
    have hdk : (keysA dist).Nodup := by
      rw [hdist, keysA_dijkstraFrom g s hwf hsreg]
      exact hwf.1
    have hck : (keysA cands).Nodup := nodup_keysA_filterMap hf hdk
    have hsk : (keysA sorted).Nodup := by
      have hperm : (sorted.map Prod.fst).Perm (cands.map Prod.fst) :=
        (sortedBy_perm (topKeyLe g) cands).map Prod.fst
      exact hperm.nodup_iff.mpr hck
    refine ⟨?_, ?_, ?_, ?_, ?_⟩
    · rw [List.length_map]
      exact List.length_take_le n sorted
    · have hsub : ((sorted.take n).map Prod.fst).Sublist (sorted.map Prod.fst) :=
        (List.take_sublist n sorted).map Prod.fst
      exact List.Nodup.sublist hsub hsk
    · intro hmem
      obtain ⟨p, hp, hps⟩ := List.mem_map.mp hmem
      have hpc : p ∈ cands := mem_sortedBy.mp (List.mem_of_mem_take hp)
      exact (mem_candidates hpc).1 hps
    · intro hn
      rw [hn]
      simp
    · rw [List.pairwise_map]
      have hpw : sorted.Pairwise (fun a b => topKeyLe g a b = true) :=
        pairwise_sortedBy (topKeyLe_trans g) (topKeyLe_total g) cands
      have hpwt : (sorted.take n).Pairwise (fun a b => topKeyLe g a b = true) :=
        hpw.sublist (List.take_sublist n sorted)
      refine hpwt.imp_of_mem ?_
      intro p q hpmem hqmem hle
      have hpc : p ∈ cands := mem_sortedBy.mp (List.mem_of_mem_take hpmem)
      have hqc : q ∈ cands := mem_sortedBy.mp (List.mem_of_mem_take hqmem)
      have hpd : distOf g s p.1 = some p.2 := by
        rw [distOf, ← hdist, mem_lookupA hdk (mem_candidates hpc).2]
        rfl
      have hqd : distOf g s q.1 = some q.2 := by
        rw [distOf, ← hdist, mem_lookupA hdk (mem_candidates hqc).2]
        rfl
      rw [codeKeyLe, hpd, hqd]
      exact hle

/-- Witness for C3 (amended) on `gSortKey` with n = 2. -/
theorem topn_props_witness :
    WellFormed gSortKey ∧
      ((gSortKey.get_top_n_recommendations 1 2).length ≤ 2 ∧
        (gSortKey.get_top_n_recommendations 1 2).Nodup ∧
        1 ∉ gSortKey.get_top_n_recommendations 1 2 ∧
        ((2 : Nat) = 0 → gSortKey.get_top_n_recommendations 1 2 = []) ∧
        (gSortKey.get_top_n_recommendations 1 2).Pairwise
          (fun a b => codeKeyLe gSortKey 1 a b = true)) :=
  ⟨by decide, topn_props gSortKey 1 2 (by decide)⟩

/-! ### Comparison and walk lemmas for the Dijkstra proof -/

theorem distLt_of_lt {x y : Nat} (j : Option Nat) (hxy : x < y)
    (h : distLt (some y) j = true) : distLt (some x) j = true := by
  cases j <;> simp [distLt] at * <;> omega

theorem distLt_false_inv {a : Nat} {j : Option Nat} (h : distLt (some a) j = false) :
    ∃ m, j = some m ∧ m ≤ a := by
  cases j with
  | none => simp [distLt] at h
  | some m =>
    simp [distLt] at h
    exact ⟨m, rfl, h⟩

theorem contains_iff {l : List Nat} {x : Nat} : l.contains x = true ↔ x ∈ l := by
  induction l with
  | nil => simp
  | cons y ys ih => simp [List.contains, List.elem_cons] at ih ⊢

theorem pairLe_fst_le {a b : Nat × Nat} (h : pairLe a b = true) : a.1 ≤ b.1 := by
  simp only [pairLe, Bool.or_eq_true, Bool.and_eq_true, decide_eq_true_eq] at h
  omega

theorem walk_append_edge {g : Graph} {s u v : Nat} {c w : Nat} (hw : Walk g s u c)
    (he : lookupA (g.nbrs u) v = some w) : Walk g s v (c + w) := by
  induction hw with
  | nil x =>
    have : Walk g x v (w + 0) := Walk.cons he (Walk.nil v)
    simpa using this
  | cons he' hw' ih =>
    rename_i a b t w' c'
    have : Walk g a v (w' + (c' + w)) := Walk.cons he' (ih he)
    have harr : w' + (c' + w) = w' + c' + w := by omega
    rwa [harr] at this

theorem join_some_some {α : Type} (x : α) :
    (some (some x) : Option (Option α)).join = some x := rfl

/-! ### Relaxation-fold lemmas -/

theorem relax_acc_mono (visited : List Nat) (d : Nat) (L : List (Nat × Nat))
    (dist : List (Nat × Option Nat)) (acc : List (Nat × Nat)) :
    ∀ e ∈ acc, e ∈ (relax visited d L dist acc).2 := by
  induction L generalizing dist acc with
  | nil => exact fun e he => he
  | cons q rest ih =>
    obtain ⟨t, w⟩ := q
    intro e he
    rw [relax]
    split
    · exact ih dist acc e he
    · split
      · exact ih _ _ e (List.mem_append.mpr (Or.inl he))
      · exact ih dist acc e he

theorem relax_pushes_length (visited : List Nat) (d : Nat) (L : List (Nat × Nat))
    (dist : List (Nat × Option Nat)) (acc : List (Nat × Nat)) :
    (relax visited d L dist acc).2.length ≤ acc.length + L.length := by
  induction L generalizing dist acc with
  | nil => simp [relax]
  | cons q rest ih =>
    obtain ⟨t, w⟩ := q
    rw [relax]
    split
    · exact (ih dist acc).trans (by simp)
    · split
      · refine (ih _ _).trans ?_
        simp only [List.length_append, List.length_cons, List.length_nil]
        omega
      · exact (ih dist acc).trans (by simp)

theorem relax_lookup (visited : List Nat) (d : Nat) (L : List (Nat × Nat))
    (dist : List (Nat × Option Nat)) (acc : List (Nat × Nat)) (v : Nat) :
    lookupA (relax visited d L dist acc).1 v = lookupA dist v ∨
    (v ∉ visited ∧ ∃ w, (v, w) ∈ L ∧
      lookupA (relax visited d L dist acc).1 v = some (some (d + w)) ∧
      distLt (some (d + w)) ((lookupA dist v).join) = true) := by
  induction L generalizing dist acc with
  | nil => exact Or.inl rfl
  | cons q rest ih =>
    obtain ⟨t, w'⟩ := q
    rw [relax]
    split
    · rcases ih dist acc with h | ⟨hnv, w, hw, hval, hlt⟩
      · exact Or.inl h
      · exact Or.inr ⟨hnv, w, List.mem_cons_of_mem _ hw, hval, hlt⟩
    · split
      · rename_i hvis himp
        rcases ih (setA dist t (some (d + w'))) (acc ++ [(d + w', t)]) with h | h
        · by_cases hvt : v = t
          · subst hvt
            rw [lookupA_setA_self] at h
            refine Or.inr ⟨fun hmem => hvis (contains_iff.mpr hmem), w',
              List.mem_cons_self _ _, h, himp⟩
          · rw [lookupA_setA_ne _ _ hvt] at h
            exact Or.inl h
        · obtain ⟨hnv, w, hw, hval, hlt⟩ := h
          refine Or.inr ⟨hnv, w, List.mem_cons_of_mem _ hw, hval, ?_⟩
          by_cases hvt : v = t
          · subst hvt
            rw [lookupA_setA_self] at hlt
            exact distLt_of_lt _ (by
              simp only [Option.join, distLt, decide_eq_true_eq] at hlt
              simpa using hlt) himp
          · rwa [lookupA_setA_ne _ _ hvt] at hlt
      · rcases ih dist acc with h | ⟨hnv, w, hw, hval, hlt⟩
        · exact Or.inl h
        · exact Or.inr ⟨hnv, w, List.mem_cons_of_mem _ hw, hval, hlt⟩

theorem relax_frontier (visited : List Nat) (d : Nat) (L : List (Nat × Nat))
    (dist : List (Nat × Option Nat)) (acc : List (Nat × Nat)) :
    ∀ q ∈ L, q.1 ∉ visited →
      ∃ dt, lookupA (relax visited d L dist acc).1 q.1 = some (some dt) ∧ dt ≤ d + q.2 := by
  induction L generalizing dist acc with
  | nil =>
    intro q hq
    simp at hq
  | cons q0 rest ih =>
    obtain ⟨t, w⟩ := q0
    intro q hq hnv
    rcases List.mem_cons.mp hq with heq | hq
    · subst heq
      simp only at hnv ⊢
      rw [relax]
      rw [if_neg (fun hc => hnv (contains_iff.mp hc))]
      split
      · rcases relax_lookup visited d rest (setA dist t (some (d + w)))
            (acc ++ [(d + w, t)]) t with h | ⟨-, w2, -, hval, hlt⟩
        · rw [lookupA_setA_self] at h
          exact ⟨d + w, h, le_refl _⟩
        · rw [lookupA_setA_self, join_some_some] at hlt
          refine ⟨d + w2, hval, ?_⟩
          simp only [distLt, decide_eq_true_eq] at hlt
          omega
      · rename_i himp
        obtain ⟨m, hm, hle⟩ := distLt_false_inv (Bool.not_eq_true _ ▸ himp)
        have hdist : lookupA dist t = some (some m) := by
          cases hl : lookupA dist t with
          | none =>
            rw [hl, show (none : Option (Option Nat)).join = none from rfl] at hm
            exact Option.noConfusion hm
          | some o =>
            cases o with
            | none =>
              rw [hl, show (some (none : Option Nat)).join = none from rfl] at hm
              exact Option.noConfusion hm
            | some m2 =>
              rw [hl, join_some_some] at hm
              exact congrArg (fun z => some (some z)) (Option.some.inj hm)
        rcases relax_lookup visited d rest dist acc t with h | ⟨-, w2, -, hval, hlt⟩
        · refine ⟨m, ?_, hle⟩
          rw [h]
          exact hdist
        · rw [hdist, join_some_some] at hlt
          simp only [distLt, decide_eq_true_eq] at hlt
          exact ⟨d + w2, hval, by omega⟩
    · rw [relax]
      split
      · exact ih dist acc q hq hnv
      · split
        · exact ih _ _ q hq hnv
        · exact ih dist acc q hq hnv

theorem relax_pushes (visited : List Nat) (d : Nat) (L : List (Nat × Nat))
    (dist : List (Nat × Option Nat)) (acc : List (Nat × Nat)) :
    ∀ e ∈ (relax visited d L dist acc).2, e ∈ acc ∨
      (e.2 ∉ visited ∧
        ∃ dt, lookupA (relax visited d L dist acc).1 e.2 = some (some dt) ∧ dt ≤ e.1) := by
  induction L generalizing dist acc with
  | nil => exact fun e he => Or.inl he
  | cons q rest ih =>
    obtain ⟨t, w⟩ := q
    intro e he
    rw [relax] at he ⊢
    split at he
    · rename_i hvis
      rw [if_pos hvis]
      exact ih dist acc e he
    · rename_i hvis
      rw [if_neg hvis]
      split at he
      · rename_i himp
        rw [if_pos himp]
        rcases ih (setA dist t (some (d + w))) (acc ++ [(d + w, t)]) e he with hacc | hprop
        · rcases List.mem_append.mp hacc with hacc | hone
          · exact Or.inl hacc
          · rw [List.mem_singleton.mp hone]
            refine Or.inr ⟨fun hmem => hvis (contains_iff.mpr hmem), ?_⟩
            rcases relax_lookup visited d rest (setA dist t (some (d + w)))
                (acc ++ [(d + w, t)]) t with h | ⟨-, w2, -, hval, hlt⟩
            · rw [lookupA_setA_self] at h
              exact ⟨d + w, h, le_refl _⟩
            · rw [lookupA_setA_self, join_some_some] at hlt
              simp only [distLt, decide_eq_true_eq] at hlt
              exact ⟨d + w2, hval, by omega⟩
        · exact Or.inr hprop
      · rename_i himp
        rw [if_neg himp]
        exact ih dist acc e he

theorem relax_queued (visited : List Nat) (d : Nat) (L : List (Nat × Nat))
    (dist : List (Nat × Option Nat)) (acc : List (Nat × Nat)) :
    ∀ v dv, lookupA (relax visited d L dist acc).1 v = some (some dv) →
      lookupA dist v = some (some dv) ∨ (dv, v) ∈ (relax visited d L dist acc).2 := by
  induction L generalizing dist acc with
  | nil => exact fun v dv h => Or.inl h
  | cons q rest ih =>
    obtain ⟨t, w⟩ := q
    intro v dv hv
    rw [relax] at hv ⊢
    split at hv
    · rename_i hvis
      rw [if_pos hvis]
      exact ih dist acc v dv hv
    · rename_i hvis
      rw [if_neg hvis]
      split at hv
      · rename_i himp
        rw [if_pos himp]
        rcases ih (setA dist t (some (d + w))) (acc ++ [(d + w, t)]) v dv hv with h | h
        · by_cases hvt : v = t
          · subst hvt
            rw [lookupA_setA_self] at h
            right
            have : dv = d + w := (Option.some.inj (Option.some.inj h)).symm
            rw [this]
            exact relax_acc_mono visited d rest _ _ _
              (List.mem_append.mpr (Or.inr (List.mem_singleton.mpr rfl)))
          · rw [lookupA_setA_ne _ _ hvt] at h
            exact Or.inl h
        · exact Or.inr h
      · rename_i himp
        rw [if_neg himp]
        exact ih dist acc v dv hv

/-! ### Invariant preservation of the Dijkstra loop -/

theorem relax_mono (visited : List Nat) (d : Nat) (L : List (Nat × Nat))
    (dist : List (Nat × Option Nat)) (acc : List (Nat × Nat)) {v dv : Nat}
    (h : lookupA dist v = some (some dv)) :
    ∃ dv', lookupA (relax visited d L dist acc).1 v = some (some dv') ∧ dv' ≤ dv := by
  rcases relax_lookup visited d L dist acc v with heq | ⟨-, w, -, hval, hlt⟩
  · exact ⟨dv, heq.trans h, le_refl _⟩
  · rw [h, join_some_some] at hlt
    simp only [distLt, decide_eq_true_eq] at hlt
    exact ⟨d + w, hval, le_of_lt hlt⟩

theorem relax_visited_eq (visited : List Nat) (d : Nat) (L : List (Nat × Nat))
    (dist : List (Nat × Option Nat)) (acc : List (Nat × Nat)) {v : Nat}
    (hv : v ∈ visited) :
    lookupA (relax visited d L dist acc).1 v = lookupA dist v := by
  rcases relax_lookup visited d L dist acc v with heq | ⟨hnv, -⟩
  · exact heq
  · exact absurd hv hnv

theorem nbrs_nodupkeys {g : Graph} (hwf : WellFormed g) (u : Nat) :
    (keysA (g.nbrs u)).Nodup := by
  rw [Graph.nbrs]
  cases hv : lookupA g.vertices u with
  | none => simp [keysA]
  | some nb =>
    simp only [Option.getD_some]
    exact (hwf.2 (u, nb) (lookupA_mem hv)).1

theorem initDist_lookup_finite {g : Graph} {s v : Nat} {dv : Nat}
    (h : lookupA (initDist g s) v = some (some dv)) : v = s ∧ dv = 0 := by
  by_cases hvs : v = s
  · subst hvs
    rw [initDist, lookupA_setA_self] at h
    exact ⟨rfl, (Option.some.inj (Option.some.inj h)).symm⟩
  · rw [initDist, lookupA_setA_ne _ _ hvs] at h
    have hmem := lookupA_mem h
    obtain ⟨q, -, hq⟩ := List.mem_map.mp hmem
    exact absurd (congrArg Prod.snd hq) (by simp)

theorem dijkInv_init (g : Graph) (s : Nat) (hs : g.hasVertex s = true) :
    DijkInv g s [(0, s)] (initDist g s) [] := by
  refine ⟨keysA_initDist g s hs, by rw [initDist, lookupA_setA_self], ?_, ?_, ?_, ?_, ?_⟩
  · intro v dv h
    obtain ⟨rfl, rfl⟩ := initDist_lookup_finite h
    exact Walk.nil v
  · intro e he
    rw [List.mem_singleton.mp he]
    exact ⟨0, by rw [initDist, lookupA_setA_self], le_refl 0⟩
  · intro v dv _ h
    obtain ⟨rfl, rfl⟩ := initDist_lookup_finite h
    exact List.mem_singleton.mpr rfl
  · intro v hv
    simp at hv
  · intro u hu
    simp at hu

theorem dijkInv_skip {g : Graph} {s : Nat} {pq : List (Nat × Nat)}
    {dist : List (Nat × Option Nat)} {visited : List Nat} {d u : Nat}
    {rest : List (Nat × Nat)} (inv : DijkInv g s pq dist visited)
    (hpm : popMin pq = some ((d, u), rest)) (hu : u ∈ visited) :
    DijkInv g s rest dist visited := by
  have hperm := popMin_perm hpm
  refine ⟨inv.keys, inv.source0, inv.attain, ?_, ?_, inv.settledLB, inv.frontier⟩
  · intro e he
    exact inv.queuedLB e (hperm.mem_iff.mpr (List.mem_cons_of_mem _ he))
  · intro v dv hv hval
    have := inv.queued v dv hv hval
    rcases List.mem_cons.mp (hperm.mem_iff.mp this) with heq | hmem
    · have hvu : v = u := congrArg Prod.snd heq
      rw [hvu] at hv
      exact absurd hu hv
    · exact hmem

theorem dijk_cover_from {g : Graph} {s : Nat} {pq : List (Nat × Nat)}
    {dist : List (Nat × Option Nat)} {visited : List Nat}
    (inv : DijkInv g s pq dist visited) :
    ∀ u t c, Walk g u t c → ∀ du, u ∈ visited → lookupA dist u = some (some du) →
      t ∉ visited → ∃ e ∈ pq, e.1 ≤ du + c := by
  intro u t c hw
  induction hw with
  | nil x =>
    intro du hu _ ht
    exact absurd hu ht
  | cons he hw' ih =>
    rename_i a y t' w c'
    intro du hu hdu ht
    by_cases hy : y ∈ visited
    · obtain ⟨dy, hdy, hdyLB⟩ := inv.settledLB y hy
      have hWy : Walk g s y (du + w) := walk_append_edge (inv.attain a du hdu) he
      have hle : dy ≤ du + w := hdyLB _ hWy
      obtain ⟨e, he', hle'⟩ := ih dy hy hdy ht
      exact ⟨e, he', hle'.trans (by omega)⟩
    · obtain ⟨du', dt, hdu', hdt, hle⟩ :=
        inv.frontier a hu (y, w) (lookupA_mem he) hy
      have hdu'' : du' = du := Option.some.inj (Option.some.inj (hdu'.symm.trans hdu))
      refine ⟨(dt, y), inv.queued y dt hy hdt, ?_⟩
      simp only []
      omega

theorem dijk_cover {g : Graph} {s : Nat} {pq : List (Nat × Nat)}
    {dist : List (Nat × Option Nat)} {visited : List Nat}
    (inv : DijkInv g s pq dist visited) {v c : Nat} (hv : v ∉ visited)
    (hw : Walk g s v c) : ∃ e ∈ pq, e.1 ≤ c := by
  by_cases hs : s ∈ visited
  · obtain ⟨e, he, hle⟩ := dijk_cover_from inv s v c hw 0 hs inv.source0 hv
    exact ⟨e, he, by omega⟩
  · refine ⟨(0, s), inv.queued s 0 hs inv.source0, by omega⟩

theorem dijkInv_settle {g : Graph} {s : Nat} {pq : List (Nat × Nat)}
    {dist : List (Nat × Option Nat)} {visited : List Nat} {d u : Nat}
    {rest : List (Nat × Nat)} (hwf : WellFormed g)
    (inv : DijkInv g s pq dist visited) (hpm : popMin pq = some ((d, u), rest))
    (hu : u ∉ visited) :
    DijkInv g s (rest ++ (relax (visited ++ [u]) d (g.nbrs u) dist []).2)
      (relax (visited ++ [u]) d (g.nbrs u) dist []).1 (visited ++ [u]) := by
  have hperm := popMin_perm hpm
  have hmem : (d, u) ∈ pq := hperm.mem_iff.mpr (List.mem_cons_self _ _)
  obtain ⟨du, hdu0, hdule⟩ := inv.queuedLB (d, u) hmem
  have hdle : d ≤ du :=
    pairLe_fst_le (popMin_le hpm (du, u) (inv.queued u du hu hdu0))
  have hdud : du = d := le_antisymm hdule hdle
  have hdu : lookupA dist u = some (some d) := by rw [hdu0, hdud]
  have hshort : ∀ c, Walk g s u c → d ≤ c := by
    intro c hw
    obtain ⟨e, he, hle⟩ := dijk_cover inv hu hw
    exact (pairLe_fst_le (popMin_le hpm e he)).trans hle
  have huvis : u ∈ visited ++ [u] := List.mem_append.mpr (Or.inr (List.mem_singleton.mpr rfl))
  have hsubvis : ∀ v : Nat, v ∈ visited → v ∈ visited ++ [u] :=
    fun v hv => List.mem_append.mpr (Or.inl hv)
  have hnotvis : ∀ v : Nat, v ∉ visited ++ [u] → v ∉ visited ∧ v ≠ u := by
    intro v hv
    constructor
    · exact fun h => hv (hsubvis v h)
    · intro h
      rw [h] at hv
      exact hv huvis
  refine ⟨?_, ?_, ?_, ?_, ?_, ?_, ?_⟩
  · rw [keysA_relax _ _ _ _ _ (fun q hq => by
      rw [inv.keys]
      exact hasKey_iff.mp (nbrs_targets_registered hwf u q hq))]
    exact inv.keys
  · rcases relax_lookup (visited ++ [u]) d (g.nbrs u) dist [] s with h | ⟨-, w, -, -, hlt⟩
    · rw [h]
      exact inv.source0
    · rw [inv.source0, join_some_some] at hlt
      simp [distLt] at hlt
  · intro v dv hv
    rcases relax_lookup (visited ++ [u]) d (g.nbrs u) dist [] v with h | ⟨-, w, hw, hval, -⟩
    · exact inv.attain v dv (h.symm.trans hv)
    · have hdv : dv = d + w := Option.some.inj (Option.some.inj (hval.symm.trans hv)).symm
      have he : lookupA (g.nbrs u) v = some w := mem_lookupA (nbrs_nodupkeys hwf u) hw
      rw [hdv]
      exact walk_append_edge (inv.attain u d hdu) he
  · intro e he
    rcases List.mem_append.mp he with he | he
    · obtain ⟨d', hd', hle⟩ := inv.queuedLB e (hperm.mem_iff.mpr (List.mem_cons_of_mem _ he))
      obtain ⟨d'', hd'', hle'⟩ := relax_mono (visited ++ [u]) d (g.nbrs u) dist [] hd'
      exact ⟨d'', hd'', hle'.trans hle⟩
    · rcases relax_pushes (visited ++ [u]) d (g.nbrs u) dist [] e he with habs | ⟨-, hprop⟩
      · exact absurd habs (List.not_mem_nil e)
      · exact hprop
  · intro v dv hv hval
    obtain ⟨hvold, hvu⟩ := hnotvis v hv
    rcases relax_queued (visited ++ [u]) d (g.nbrs u) dist [] v dv hval with hold | hpush
    · have := inv.queued v dv hvold hold
      rcases List.mem_cons.mp (hperm.mem_iff.mp this) with heq | hmem
      · exact absurd (congrArg Prod.snd heq) hvu
      · exact List.mem_append.mpr (Or.inl hmem)
    · exact List.mem_append.mpr (Or.inr hpush)
  · intro v hv
    rcases List.mem_append.mp hv with hv | hv
    · obtain ⟨dv, hdv, hLB⟩ := inv.settledLB v hv
      refine ⟨dv, ?_, hLB⟩
      rw [relax_visited_eq _ _ _ _ _ (hsubvis v hv)]
      exact hdv
    · rw [List.mem_singleton.mp hv]
      refine ⟨d, ?_, hshort⟩
      rw [relax_visited_eq _ _ _ _ _ huvis]
      exact hdu
  · intro u' hu' q hq hqnv
    rcases List.mem_append.mp hu' with hu' | hu'
    · obtain ⟨du', dt, hdu', hdt, hle⟩ :=
        inv.frontier u' hu' q hq (fun h => hqnv (hsubvis q.1 h))
      obtain ⟨dt', hdt', hdtle⟩ := relax_mono (visited ++ [u]) d (g.nbrs u) dist [] hdt
      refine ⟨du', dt', ?_, hdt', by omega⟩
      rw [relax_visited_eq _ _ _ _ _ (hsubvis u' hu')]
      exact hdu'
    · rw [List.mem_singleton.mp hu'] at hq ⊢
      obtain ⟨dt, hdt, hdtle⟩ :=
        relax_frontier (visited ++ [u]) d (g.nbrs u) dist [] q hq hqnv
      refine ⟨d, dt, ?_, hdt, hdtle⟩
      rw [relax_visited_eq _ _ _ _ _ huvis]
      exact hdu

theorem dijkInv_final {g : Graph} {s : Nat} {dist : List (Nat × Option Nat)}
    {visited : List Nat} (inv : DijkInv g s [] dist visited) :
    lookupA dist s = some (some 0) ∧
      ∀ v dv, lookupA dist v = some dv →
        (∀ e : Nat, dv = some e → ShortestDist g s v e) ∧
        (dv = none → ¬ Reachable g s v) := by
  refine ⟨inv.source0, ?_⟩
  intro v dv hv
  constructor
  · rintro e rfl
    by_cases hvis : v ∈ visited
    · obtain ⟨d', hd', hLB⟩ := inv.settledLB v hvis
      have hde : d' = e := Option.some.inj (Option.some.inj (hd'.symm.trans hv))
      exact ⟨inv.attain v e hv, fun c hc => hde ▸ hLB c hc⟩
    · exact absurd (inv.queued v e hvis hv) (List.not_mem_nil _)
  · rintro rfl ⟨c, hw⟩
    by_cases hvis : v ∈ visited
    · obtain ⟨d', hd', -⟩ := inv.settledLB v hvis
      have := hd'.symm.trans hv
      simp at this
    · obtain ⟨e, he, -⟩ := dijk_cover inv hvis hw
      exact absurd he (List.not_mem_nil e)

theorem length_filter_mono {α : Type} (l : List α) (p q : α → Bool)
    (h : ∀ x ∈ l, p x = true → q x = true) :
    (l.filter p).length ≤ (l.filter q).length := by
  induction l with
  | nil => simp
  | cons a t ih =>
    have iht := ih (fun x hx => h x (List.mem_cons_of_mem _ hx))
    cases hp : p a with
    | true =>
      rw [List.filter_cons_of_pos hp, List.filter_cons_of_pos (h a (List.mem_cons_self a t) hp)]
      simpa using iht
    | false =>
      rw [List.filter_cons_of_neg (by simp [hp])]
      cases hq : q a with
      | true =>
        rw [List.filter_cons_of_pos hq]
        exact iht.trans (Nat.le_succ _)
      | false =>
        rw [List.filter_cons_of_neg (by simp [hq])]
        exact iht

theorem length_filter_lt {α : Type} (l : List α) (p q : α → Bool) (a : α)
    (h : ∀ x ∈ l, p x = true → q x = true) (ha : a ∈ l)
    (hpa : p a = false) (hqa : q a = true) :
    (l.filter p).length < (l.filter q).length := by
  induction l with
  | nil => simp at ha
  | cons b t ih =>
    have hmono := length_filter_mono t p q (fun x hx => h x (List.mem_cons_of_mem _ hx))
    rcases List.mem_cons.mp ha with rfl | ha'
    · rw [List.filter_cons_of_neg (by simp [hpa]), List.filter_cons_of_pos hqa]
      exact Nat.lt_succ_of_le hmono
    · have iht := ih (fun x hx => h x (List.mem_cons_of_mem _ hx)) ha'
      cases hp : p b with
      | true =>
        rw [List.filter_cons_of_pos hp, List.filter_cons_of_pos (h b (List.mem_cons_self b t) hp)]
        simpa using iht
      | false =>
        rw [List.filter_cons_of_neg (by simp [hp])]
        cases hq : q b with
        | true =>
          rw [List.filter_cons_of_pos hq]
          exact Nat.lt_succ_of_lt iht
        | false =>
          rw [List.filter_cons_of_neg (by simp [hq])]
          exact iht

theorem unvisited_measure_lt {g : Graph} {visited : List Nat} {u : Nat}
    (hu : u ∉ visited) (hmem : u ∈ keysA g.vertices) :
    (g.vertices.filter (fun p => ! (visited ++ [u]).contains p.1)).length <
      (g.vertices.filter (fun p => ! visited.contains p.1)).length := by
  obtain ⟨p, hp, hpu⟩ : ∃ p ∈ g.vertices, p.1 = u := by
    rw [keysA] at hmem
    obtain ⟨p, hp, hpu⟩ := List.mem_map.mp hmem
    exact ⟨p, hp, hpu⟩
  refine length_filter_lt g.vertices _ _ p ?_ hp ?_ ?_
  · intro x hx hxp
    simp only [Bool.not_eq_true'] at hxp ⊢
    cases hvc : visited.contains x.1 with
    | false => rfl
    | true =>
      exfalso
      have hx1 : (visited ++ [u]).contains x.1 = true :=
        contains_iff.mpr (List.mem_append.mpr (Or.inl (contains_iff.mp hvc)))
      rw [hxp] at hx1
      exact Bool.false_ne_true hx1
  · simp only [Bool.not_eq_false']
    exact contains_iff.mpr (by
      rw [hpu]
      exact List.mem_append.mpr (Or.inr (List.mem_singleton.mpr rfl)))
  · simp only [Bool.not_eq_true']
    cases hvc : visited.contains p.1 with
    | false => rfl
    | true => exact absurd (hpu ▸ contains_iff.mp hvc) hu

theorem nbrs_length_le (g : Graph) (u : Nat) : (g.nbrs u).length ≤ totalAdj g := by
  rw [Graph.nbrs, totalAdj]
  cases hv : lookupA g.vertices u with
  | none => simp
  | some nb =>
    simp only [Option.getD_some]
    have hmem : nb.length ∈ g.vertices.map (fun p => p.2.length) :=
      List.mem_map.mpr ⟨(u, nb), lookupA_mem hv, rfl⟩
    exact List.single_le_sum (fun x _ => Nat.zero_le x) _ hmem

theorem dijkstraLoop_succ_none {g : Graph} {fuel : Nat} {pq : List (Nat × Nat)}
    {dist : List (Nat × Option Nat)} {visited : List Nat}
    (h : popMin pq = none) :
    dijkstraLoop g (fuel + 1) pq dist visited = dist := by
  rw [dijkstraLoop, h]

theorem dijkstraLoop_succ_skip {g : Graph} {fuel : Nat} {pq : List (Nat × Nat)}
    {dist : List (Nat × Option Nat)} {visited : List Nat} {d u : Nat}
    {rest : List (Nat × Nat)} (h : popMin pq = some ((d, u), rest))
    (hc : visited.contains u = true) :
    dijkstraLoop g (fuel + 1) pq dist visited = dijkstraLoop g fuel rest dist visited := by
  rw [dijkstraLoop, h]
  show (if visited.contains u = true then dijkstraLoop g fuel rest dist visited
      else
        dijkstraLoop g fuel (rest ++ (relax (visited ++ [u]) d (g.nbrs u) dist []).2)
          (relax (visited ++ [u]) d (g.nbrs u) dist []).1 (visited ++ [u])) =
    dijkstraLoop g fuel rest dist visited
  rw [if_pos hc]

theorem dijkstraLoop_succ_settle {g : Graph} {fuel : Nat} {pq : List (Nat × Nat)}
    {dist : List (Nat × Option Nat)} {visited : List Nat} {d u : Nat}
    {rest : List (Nat × Nat)} (h : popMin pq = some ((d, u), rest))
    (hc : visited.contains u = false) :
    dijkstraLoop g (fuel + 1) pq dist visited =
      dijkstraLoop g fuel (rest ++ (relax (visited ++ [u]) d (g.nbrs u) dist []).2)
        (relax (visited ++ [u]) d (g.nbrs u) dist []).1 (visited ++ [u]) := by
  rw [dijkstraLoop, h]
  show (if visited.contains u = true then dijkstraLoop g fuel rest dist visited
      else
        dijkstraLoop g fuel (rest ++ (relax (visited ++ [u]) d (g.nbrs u) dist []).2)
          (relax (visited ++ [u]) d (g.nbrs u) dist []).1 (visited ++ [u])) =
    dijkstraLoop g fuel (rest ++ (relax (visited ++ [u]) d (g.nbrs u) dist []).2)
      (relax (visited ++ [u]) d (g.nbrs u) dist []).1 (visited ++ [u])
  rw [if_neg (fun hcon => Bool.false_ne_true (hc ▸ hcon))]

theorem dijkstraLoop_correct (g : Graph) (s : Nat) (hwf : WellFormed g) :
    ∀ (fuel : Nat) (pq : List (Nat × Nat)) (dist : List (Nat × Option Nat))
      (visited : List Nat), DijkInv g s pq dist visited →
      (g.vertices.filter (fun p => ! visited.contains p.1)).length * (totalAdj g + 1)
          + pq.length ≤ fuel →
      lookupA (dijkstraLoop g fuel pq dist visited) s = some (some 0) ∧
      ∀ v dv, lookupA (dijkstraLoop g fuel pq dist visited) v = some dv →
        (∀ e : Nat, dv = some e → ShortestDist g s v e) ∧
        (dv = none → ¬ Reachable g s v) := by
  intro fuel
  induction fuel with
  | zero =>
    intro pq dist visited inv hm
    have hlen : pq.length = 0 := Nat.le_zero.mp ((Nat.le_add_left pq.length _).trans hm)
    have hpq : pq = [] := List.length_eq_zero.mp hlen
    subst hpq
    exact dijkInv_final inv
  | succ fuel ih =>
    intro pq dist visited inv hm
    cases hpm : popMin pq with
    | none =>
      rw [dijkstraLoop_succ_none hpm]
      have hpq : pq = [] := popMin_eq_none_iff.mp hpm
      subst hpq
      exact dijkInv_final inv
    | some m =>
      obtain ⟨⟨d, u⟩, rest⟩ := m
      have hlen : pq.length = rest.length + 1 := by
        have := (popMin_perm hpm).length_eq
        simpa using this
      cases hc : visited.contains u with
      | true =>
        rw [dijkstraLoop_succ_skip hpm hc]
        refine ih rest dist visited (dijkInv_skip inv hpm (contains_iff.mp hc)) ?_
        generalize (g.vertices.filter (fun p => ! visited.contains p.1)).length
            * (totalAdj g + 1) = M at hm ⊢
        omega
      | false =>
        have hu : u ∉ visited := fun h => Bool.false_ne_true (hc ▸ contains_iff.mpr h)
        rw [dijkstraLoop_succ_settle hpm hc]
        refine ih _ _ _ (dijkInv_settle hwf inv hpm hu) ?_
        have humem : u ∈ keysA g.vertices := by
          obtain ⟨d', hd', -⟩ := inv.queuedLB (d, u)
            ((popMin_perm hpm).mem_iff.mpr (List.mem_cons_self _ _))
          rw [← inv.keys, ← lookupA_isSome_iff, hd']
          rfl
        have hlt := unvisited_measure_lt (g := g) hu humem
        have hpush : (relax (visited ++ [u]) d (g.nbrs u) dist []).2.length ≤ totalAdj g := by
          have h1 := relax_pushes_length (visited ++ [u]) d (g.nbrs u) dist []
          have h2 := nbrs_length_le g u
          simp only [List.length_nil, Nat.zero_add] at h1
          exact h1.trans h2
        have hmul : ((g.vertices.filter (fun p => ! (visited ++ [u]).contains p.1)).length + 1)
            * (totalAdj g + 1)
            ≤ (g.vertices.filter (fun p => ! visited.contains p.1)).length
                * (totalAdj g + 1) :=
          Nat.mul_le_mul_right _ hlt
        rw [add_one_mul] at hmul
        rw [List.length_append]
        generalize (g.vertices.filter (fun p => ! (visited ++ [u]).contains p.1)).length
            * (totalAdj g + 1) = M1 at hmul ⊢
        generalize (g.vertices.filter (fun p => ! visited.contains p.1)).length
            * (totalAdj g + 1) = M2 at hmul hm
        omega

/-- General soundness of the embedded Dijkstra loop on any well-formed
graph: the source maps to `0` and every registered vertex to its true
shortest walk distance, or to the infinity marker exactly when
unreachable. -/
theorem dijkstraFrom_sound (g : Graph) (s : Nat) (hwf : WellFormed g)
    (hs : g.hasVertex s = true) :
    lookupA (dijkstraFrom g s) s = some (some 0) ∧
    ∀ v ∈ keysA g.vertices, ∃ dv, lookupA (dijkstraFrom g s) v = some dv ∧
      (∀ e : Nat, dv = some e → ShortestDist g s v e) ∧
      (dv = none → ¬ Reachable g s v) := by
  have hmeas : (g.vertices.filter (fun p => ! List.contains [] p.1)).length
      * (totalAdj g + 1) + 1 ≤ dijkstraFuel g := by
    have h1 : (g.vertices.filter (fun p => ! List.contains [] p.1)).length
        ≤ g.vertices.length := List.length_filter_le _ _
    have h2 := Nat.mul_le_mul_right (totalAdj g + 1) h1
    rw [dijkstraFuel, add_one_mul]
    generalize (g.vertices.filter (fun p => ! List.contains [] p.1)).length
        * (totalAdj g + 1) = M1 at h2 ⊢
    generalize g.vertices.length * (totalAdj g + 1) = M2 at h2 ⊢
    omega
  have h := dijkstraLoop_correct g s hwf (dijkstraFuel g) [(0, s)] (initDist g s) []
    (dijkInv_init g s hs) hmeas
  refine ⟨h.1, ?_⟩
  intro v hv
  have hk : v ∈ keysA (dijkstraFrom g s) := by
    rw [keysA_dijkstraFrom g s hwf hs]
    exact hv
  obtain ⟨dv, hdv⟩ := Option.isSome_iff_exists.mp (lookupA_isSome_iff.mpr hk)
  exact ⟨dv, hdv, h.2 v dv hdv⟩

/-- C7: for every graph produced by `build_anime_graph` and every
registered source, the distance table computed by the shared Dijkstra
loop maps the source to `0` and maps every registered vertex either to
the true minimum total edge weight over all walks from the source (the
brute-force reference notion) when one exists, or to the infinity marker
exactly when the vertex is unreachable; no unreachable vertex ever
receives a finite distance. -/
theorem dijkstra_correct (rows : List Record) (s : Nat)
    (hs : (build_anime_graph rows).1.hasVertex s = true) :
    lookupA (dijkstraFrom (build_anime_graph rows).1 s) s = some (some 0) ∧
    ∀ v ∈ keysA (build_anime_graph rows).1.vertices,
      ∃ dv, lookupA (dijkstraFrom (build_anime_graph rows).1 s) v = some dv ∧
        (∀ e : Nat, dv = some e → ShortestDist (build_anime_graph rows).1 s v e) ∧
        (dv = none → ¬ Reachable (build_anime_graph rows).1 s v) :=
  dijkstraFrom_sound (build_anime_graph rows).1 s (build_wellFormed rows) hs

theorem dijkstra_correct_witness :
    gSortKey.hasVertex 1 = true ∧
      (lookupA (dijkstraFrom gSortKey 1) 1 = some (some 0) ∧
        ∀ v ∈ keysA gSortKey.vertices, ∃ dv, lookupA (dijkstraFrom gSortKey 1) v = some dv ∧
          (∀ e : Nat, dv = some e → ShortestDist gSortKey 1 v e) ∧
          (dv = none → ¬ Reachable gSortKey 1 v)) :=
  ⟨by decide, dijkstra_correct rowsSortKey 1 (by decide)⟩
